import Mathlib

/-!
# Flash drive filler: the Writer loop of `main` and the Reporter `update_progress_bar`

Shallow embedding of `src/main.cpp`.

* `ULONGLONG` values are natural numbers below `2 ^ 64`; subtraction and addition on them
  wrap (`usub`, `uadd`).
* `std::ofstream file` is a pair of flags (`is_open`, `failed`) with the library behaviour of
  `open`, `write` and `close`.
* The volume is the list `existing` of indices `i` whose path `filldata_<i>.bin` exists when
  the session starts, together with the files the Writer has created.
* Whether an `open` or a `write` of the operating system succeeds is given by two oracles,
  indexed by the number of the loop iteration in which the call is made.
* `file_index` is an `int` in the source; it is a natural number here, so a session that would
  need more than `2 ^ 31` file names is outside the model.
* The two threads communicate through `std::atomic` objects with the default (sequentially
  consistent) ordering; the concurrent system is an interleaving of atomic steps.
* Of a render of the Reporter the model keeps the byte count shown and whether the output
  statement completes; an exception that leaves the thread function ends the process.
-/

namespace FlashDriveFiller

/-! ## Machine integers -/

/-- Number of values of a `ULONGLONG` (and of `size_t` on a 64-bit build). -/
def ULL : Nat := 2 ^ 64

/-- Unsigned 64-bit subtraction `a - b`, for `b < 2 ^ 64`. -/
def usub (a b : Nat) : Nat := (a + ULL - b) % ULL

/-- Unsigned 64-bit addition `a + b`. -/
def uadd (a b : Nat) : Nat := (a + b) % ULL

/-! ## Data model -/

/-- The constants and the capacity of one session: `total_bytes_to_write` (line 173),
`max_file_size` (line 177, `4 GiB` in the source) and `buffer_size` (line 156, `1 MiB`). -/
structure Config where
  total_bytes_to_write : Nat
  max_file_size : Nat
  buffer_size : Nat

/-- All three quantities are values of their 64-bit unsigned types. -/
def Config.wf (p : Config) : Prop :=
  p.total_bytes_to_write < ULL ∧ p.max_file_size < ULL ∧ p.buffer_size < ULL

instance (p : Config) : Decidable p.wf := by
  unfold Config.wf; infer_instance

/-- The surroundings of a session: the indices whose file exists at session start and the
outcome of the `open` and of the `write` made in loop iteration `n`. -/
structure Env where
  existing : List Nat
  openOk : Nat → Bool
  writeOk : Nat → Bool

/-- Calls on the file stream and the store to `writing_done`, as they happen. -/
inductive Event where
  | opened (idx : Nat)
  | openFailed (idx : Nat)
  | wrote (n : Nat)
  | writeFailed (n : Nat)
  | closed
  | done
  deriving DecidableEq

/-- The observable state of `std::ofstream file`: `file.is_open()` and `!file`. -/
structure OFStream where
  is_open : Bool
  failed : Bool
  deriving DecidableEq

/-- Why the `while` loop of `main` was left. -/
inductive Exit where
  | capacity
  | openFailed
  | zeroWrite
  | writeFailed
  deriving DecidableEq

/-- A line written to `std::cerr` by the loop: line 206 or line 230, with the index in the
file name held by `filename` (`none` for the empty string). -/
inductive CerrLine where
  | openFailed (name : Option Nat)
  | writeFailed (name : Option Nat)
  deriving DecidableEq

/-- The variables of the Writer (lines 175-187), the files it has created, newest first, each
with its index and the bytes stored in it, the events so far, newest first, and the lines
written to `std::cerr`, newest first. The string `filename` is kept as the index it names. -/
structure State where
  total_bytes_written : Nat
  per_file_bytes_written : Nat
  file_index : Nat
  file : OFStream
  files : List (Nat × Nat)
  log : List Event
  filename : Option Nat
  cerr : List CerrLine
  deriving DecidableEq

/-- The Writer thread between two steps: its variables, the number of loop iterations begun,
the reason the loop was left (if it was), and the flag `writing_done`. -/
structure Thread where
  s : State
  iter : Nat
  exit : Option Exit
  writing_done : Bool
  deriving DecidableEq

/-! ## The file stream -/

/-- Value of `fs::exists` for `filldata_<i>.bin`: the file was there at session start or the
Writer has created it. -/
def pathExists (env : Env) (s : State) (i : Nat) : Bool :=
  decide (i ∈ env.existing) || decide (i ∈ s.files.map Prod.fst)

/-- Behaviour of `file.open(filename, binary | out | trunc)` in iteration `n`: it fails on a
stream that is already open or when the system refuses; on success the stream state is cleared
and the (empty) file exists. -/
def fileOpen (env : Env) (n : Nat) (idx : Nat) (s : State) : State :=
  if s.file.is_open then
    { s with file := { s.file with failed := true }, log := Event.openFailed idx :: s.log }
  else if env.openOk n then
    { s with file := { is_open := true, failed := false },
             files := (idx, 0) :: s.files,
             log := Event.opened idx :: s.log }
  else
    { s with file := { s.file with failed := true }, log := Event.openFailed idx :: s.log }

/-- Add `k` bytes to the newest file. -/
def appendBytes (k : Nat) : List (Nat × Nat) → List (Nat × Nat)
  | [] => []
  | (i, b) :: rest => (i, b + k) :: rest

/-- Behaviour of `file.write(buffer.data(), k)` in iteration `n`: it fails on a stream in a
failed state, on a closed stream, or when the system refuses, and then stores nothing. -/
def fileWrite (env : Env) (n : Nat) (k : Nat) (s : State) : State :=
  if s.file.failed || !s.file.is_open || !env.writeOk n then
    { s with file := { s.file with failed := true }, log := Event.writeFailed k :: s.log }
  else
    { s with files := appendBytes k s.files, log := Event.wrote k :: s.log }

/-- Behaviour of `file.close()`: releases the handle of an open stream; fails on a closed one. -/
def fileClose (s : State) : State :=
  if s.file.is_open then
    { s with file := { s.file with is_open := false }, log := Event.closed :: s.log }
  else
    { s with file := { s.file with failed := true } }

/-! ## The Writer loop (lines 189-243) -/

/-- The inner `while (true)` of lines 192-201 from `idx`, at most `fuel` tests of `fs::exists`;
`none` when the tests are used up. -/
def scan (env : Env) (s : State) : Nat → Nat → Option Nat
  | 0, _ => none
  | fuel + 1, idx => if pathExists env s idx then scan env s fuel (idx + 1) else some idx

/-- A number of tests that the scan of lines 192-201 cannot use up. -/
def scanFuel (env : Env) (s : State) : Nat :=
  (env.existing ++ s.files.map Prod.fst).foldr max 0 + 2

/-- Lines 190-210, entered when `per_file_bytes_written == 0`: choose the name, open the file;
the flag says whether the loop is left through the `break` of line 207. -/
def selectAndOpen (env : Env) (n : Nat) (s : State) : Option (State × Bool) :=
  match scan env s (scanFuel env s) s.file_index with
  | none => none
  | some idx =>
    let s1 := fileOpen env n idx { s with file_index := idx, filename := some idx }
    if !s1.file.is_open then
      some ({ s1 with cerr := CerrLine.openFailed s1.filename :: s1.cerr }, true)
    else some ({ s1 with file_index := s1.file_index + 1 }, false)

/-- Line 215: `write_size`. -/
def writeSize (p : Config) (s : State) : Nat :=
  let bytes_remaining := usub p.total_bytes_to_write s.total_bytes_written
  let space_in_file := usub p.max_file_size s.per_file_bytes_written
  (min p.buffer_size (min bytes_remaining space_in_file)) % ULL

/-- Lines 212-242: compute `write_size`, write, update the counters, roll over. -/
def writeChunk (p : Config) (env : Env) (n : Nat) (s : State) : State × Option Exit :=
  let write_size := writeSize p s
  if write_size = 0 then (s, some Exit.zeroWrite)
  else
    let s1 := fileWrite env n write_size s
    if s1.file.failed then
      (fileClose { s1 with cerr := CerrLine.writeFailed s1.filename :: s1.cerr },
        some Exit.writeFailed)
    else
      let s2 := { s1 with
        total_bytes_written := uadd s1.total_bytes_written write_size,
        per_file_bytes_written := uadd s1.per_file_bytes_written write_size }
      if s2.per_file_bytes_written ≥ p.max_file_size then
        ({ fileClose s2 with per_file_bytes_written := 0 }, none)
      else (s2, none)

/-- One pass through the `while` of line 189, the test of its condition included. -/
def body (p : Config) (env : Env) (n : Nat) (s : State) : Option (State × Option Exit) :=
  if s.total_bytes_written < p.total_bytes_to_write then
    if s.per_file_bytes_written = 0 then
      match selectAndOpen env n s with
      | none => none
      | some (s1, true) => some (s1, some Exit.openFailed)
      | some (s1, false) => some (writeChunk p env n s1)
    else some (writeChunk p env n s)
  else some (s, some Exit.capacity)

/-- Lines 245-251: close the file if it is still open, then `writing_done = true`. -/
def finish (s : State) : State :=
  let s1 := if s.file.is_open then fileClose s else s
  { s1 with log := Event.done :: s1.log }

/-- One step of the Writer thread: a loop iteration while the loop runs, then lines 245-251;
nothing once `writing_done` is set. -/
def wstep (p : Config) (env : Env) (t : Thread) : Option Thread :=
  if t.writing_done then some t
  else
    match t.exit with
    | some _ => some { t with s := finish t.s, writing_done := true }
    | none =>
      match body p env t.iter t.s with
      | none => none
      | some (s1, e) => some { s := s1, iter := t.iter + 1, exit := e, writing_done := false }

/-- Lines 175-187: the Writer before the loop. -/
def init : Thread :=
  { s := { total_bytes_written := 0, per_file_bytes_written := 0, file_index := 0,
           file := { is_open := false, failed := false }, files := [], log := [],
           filename := none, cerr := [] },
    iter := 0, exit := none, writing_done := false }

/-- Run the Writer from `t` until `writing_done` is set, at most `fuel` steps. -/
def run (p : Config) (env : Env) : Nat → Thread → Option Thread
  | 0, t => if t.writing_done then some t else none
  | fuel + 1, t =>
    if t.writing_done then some t
    else
      match wstep p env t with
      | none => none
      | some t1 => run p env fuel t1

/-- The Writer of `main`, lines 175-251, from start to `writing_done`. -/
def writer (p : Config) (env : Env) : Option Thread :=
  run p env (p.total_bytes_to_write + 2) init

/-- The Writer after `k` steps. -/
def after (p : Config) (env : Env) : Nat → Option Thread
  | 0 => some init
  | k + 1 => (after p env k).bind (wstep p env)

/-- Sizes of the created files in creation order. -/
def sizes (s : State) : List Nat := (s.files.map Prod.snd).reverse

/-- Indices of the created files in creation order. -/
def indices (s : State) : List Nat := (s.files.map Prod.fst).reverse

/-- Number of file handles held after the events of a log (newest first). -/
def handles : List Event → Nat
  | [] => 0
  | Event.opened _ :: l => handles l + 1
  | Event.closed :: l => handles l - 1
  | _ :: l => handles l

/-- Sum of the sizes of the successful writes of a log. -/
def wroteSum : List Event → Nat
  | [] => 0
  | Event.wrote k :: l => wroteSum l + k
  | _ :: l => wroteSum l

/-- Sum of the sizes of the successful writes since the newest `open` or `close`: the bytes
written to the file that is open. -/
def currentSum : List Event → Nat
  | [] => 0
  | Event.wrote k :: l => currentSum l + k
  | Event.opened _ :: _ => 0
  | Event.closed :: _ => 0
  | _ :: l => currentSum l

/-- The events that precede the newest failed `write` of a log. -/
def beforeWriteFailure : List Event → List Event
  | [] => []
  | Event.writeFailed _ :: l => l
  | _ :: l => beforeWriteFailure l

/-- Number of calls of `write` in a log, failed ones included. -/
def writeAttempts : List Event → Nat
  | [] => 0
  | Event.wrote _ :: l => writeAttempts l + 1
  | Event.writeFailed _ :: l => writeAttempts l + 1
  | _ :: l => writeAttempts l

/-- An event of an undisturbed session: a successful `open`, a successful `write` of at least
one byte, or a `close`. -/
def Event.ok : Event → Bool
  | Event.opened _ => true
  | Event.wrote k => decide (0 < k)
  | Event.closed => true
  | _ => false

/-- The Writer can be in state `t` after some number of steps. -/
def Reach (p : Config) (env : Env) (t : Thread) : Prop :=
  ∃ k, after p env k = some t

/-! ## The Reporter thread (`update_progress_bar`, lines 89-127) -/

/-- The constant `barWidth` of line 90. -/
def barWidth : Nat := 50

/-- The value `pos` of lines 99-100 and 118-119. With `totalBytes = 0` the quotient is a NaN
(or an infinity) and its conversion to `int` yields the most negative `int`; otherwise the
floating-point quotient is taken as the exact one, rounded down. -/
def barPos (bytes totalBytes : Nat) : Int :=
  if totalBytes = 0 then -(2 ^ 31) else ((barWidth * bytes / totalBytes : Nat) : Int)

/-- Whether the output statement of lines 103-108 and 121-126 completes: `std::string(pos, c)`
and `std::string(barWidth - pos, c)` throw `std::length_error` for a negative count. -/
def renderCompletes (pos : Int) : Bool :=
  decide (0 ≤ pos) && decide (pos ≤ (barWidth : Int))

/-- Where the Reporter stands: before the test of `writing_done` (line 92), before the sample
of line 93, before the final load of line 114, returned, or left by an exception (which calls
`std::terminate`, since the thread function does not catch it). -/
inductive RPc where
  | test
  | sample
  | finalRender
  | finished
  | terminated
  deriving DecidableEq

/-- The Reporter: its position, the byte counts it has shown (newest first), and those among
them shown after it saw `writing_done` set. -/
structure Reporter where
  pc : RPc
  renders : List Nat
  afterDone : List Nat
  deriving DecidableEq

/-- One atomic step of `update_progress_bar`, reading the shared `bytesWritten` and
`writing_done` of the Writer `w`: the loop test, a periodic sample with its render, or the
final load with its render. A render that throws shows nothing. Times and rates are left
out. -/
def update_progress_bar (w : Thread) (totalBytes : Nat) (r : Reporter) : Reporter :=
  match r.pc with
  | RPc.test =>
    if w.writing_done then { r with pc := RPc.finalRender } else { r with pc := RPc.sample }
  | RPc.sample =>
    let currentBytes := w.s.total_bytes_written
    if renderCompletes (barPos currentBytes totalBytes) then
      { r with pc := RPc.test, renders := currentBytes :: r.renders }
    else { r with pc := RPc.terminated }
  | RPc.finalRender =>
    let finalBytes := w.s.total_bytes_written
    if renderCompletes (barPos finalBytes totalBytes) then
      { r with pc := RPc.finished, renders := finalBytes :: r.renders,
               afterDone := finalBytes :: r.afterDone }
    else { r with pc := RPc.terminated }
  | RPc.finished => r
  | RPc.terminated => r

/-- The two threads of a session. -/
structure Sys where
  w : Thread
  r : Reporter
  deriving DecidableEq

/-- The system when the Reporter thread is started (line 184). -/
def sysInit : Sys :=
  { w := init, r := { pc := RPc.test, renders := [], afterDone := [] } }

/-- One step of the system: the Writer moves or the Reporter moves; after `std::terminate`
nothing moves. A step of the Writer holds at most one store to a shared object (the `+=` of
line 235 or the store of line 251), and the Reporter only loads, so interleaving whole steps
yields every value the Reporter can load. A Writer that has set `writing_done` waits in the
`join` of line 255. -/
def sysStep (p : Config) (env : Env) (writerMoves : Bool) (σ : Sys) : Option Sys :=
  if σ.r.pc = RPc.terminated then some σ
  else if writerMoves then (wstep p env σ.w).map (fun w1 => { σ with w := w1 })
  else some { σ with r := update_progress_bar σ.w p.total_bytes_to_write σ.r }

/-- The system after `k` steps of the interleaving `sched`, which names the thread that makes
each step. -/
def sysAfter (p : Config) (env : Env) (sched : Nat → Bool) : Nat → Option Sys
  | 0 => some sysInit
  | k + 1 => (sysAfter p env sched k).bind (sysStep p env (sched k))

/-- Number of steps among the first `k` that the interleaving gives to the Reporter. -/
def reporterMoves (sched : Nat → Bool) : Nat → Nat
  | 0 => 0
  | k + 1 => reporterMoves sched k + (if sched k then 0 else 1)

/-- Number of steps among the first `k` that the interleaving gives to the Writer. -/
def writerMoves (sched : Nat → Bool) : Nat → Nat
  | 0 => 0
  | k + 1 => writerMoves sched k + (if sched k then 1 else 0)

/-- Number of steps the Reporter still needs to return once `writing_done` is set. -/
def stepsToReturn (r : Reporter) : Nat :=
  match r.pc with
  | RPc.sample => 3
  | RPc.test => 2
  | RPc.finalRender => 1
  | RPc.finished => 0
  | RPc.terminated => 0

/-- The constants of `main` (lines 156 and 177) with the capacity of line 173. -/
def sessionCfg (free : Nat) : Config :=
  { total_bytes_to_write := free,
    max_file_size := 4 * 1024 * 1024 * 1024,
    buffer_size := 1024 * 1024 }

/-- Facts that hold for the two threads between two steps of the system when there is
something to write. -/
structure SysInv (p : Config) (env : Env) (σ : Sys) : Prop where
  reach : Reach p env σ.w
  alive : σ.r.pc ≠ RPc.terminated
  pre : σ.r.pc = RPc.test ∨ σ.r.pc = RPc.sample → σ.r.afterDone = []
  seen : σ.r.pc = RPc.finalRender → σ.w.writing_done = true ∧ σ.r.afterDone = []
  fin : σ.r.pc = RPc.finished →
    σ.w.writing_done = true ∧ σ.r.afterDone = [σ.w.s.total_bytes_written] ∧
      σ.r.renders.head? = some σ.w.s.total_bytes_written

/-- Facts that hold for the two threads after `m` Reporter steps when the capacity is 0. -/
structure FullInv (env : Env) (σ : Sys) (m : Nat) : Prop where
  reach : Reach (sessionCfg 0) env σ.w
  renders : σ.r.renders = []
  afterDone : σ.r.afterDone = []
  pc : (m = 0 ∧ σ.r.pc = RPc.test) ∨
    (m = 1 ∧ (σ.r.pc = RPc.sample ∨ σ.r.pc = RPc.finalRender)) ∨
    (2 ≤ m ∧ σ.r.pc = RPc.terminated)

/-! ## `main` around the two threads -/

/-- What `main` learns before the session (lines 130-171): the answer to the confirmation
prompt, the two drive checks, and the free space reported by `GetDiskFreeSpaceExA`
(`none` when the call fails). -/
structure Preflight where
  confirmation : Char
  is_drive_removable : Bool
  is_drive_usb : Bool
  free_bytes_available : Option Nat

/-- How a run of `main` stands: it has returned a value, the process was ended by
`std::terminate`, or it is still running. -/
inductive MainResult where
  | returned (status : Int)
  | terminated
  | running
  deriving DecidableEq

/-- The state of `main` and, when a session was started, its two threads. -/
structure Outcome where
  result : MainResult
  session : Option Sys

/-- The `main` function after `steps` steps of its two threads under the interleaving `sched`:
lines 142-145, 151-154 and 165-171 return before the session; after a session, line 260
returns once the Writer has set `writing_done` and the `join` of line 255 has seen the
Reporter return. -/
def main (pre : Preflight) (env : Env) (sched : Nat → Bool) (steps : Nat) : Option Outcome :=
  if pre.confirmation != 'y' && pre.confirmation != 'Y' then
    some { result := MainResult.returned 0, session := none }
  else if (pre.is_drive_removable && pre.is_drive_usb) == false then
    some { result := MainResult.returned 1, session := none }
  else
    match pre.free_bytes_available with
    | none => some { result := MainResult.returned 1, session := none }
    | some free =>
      match sysAfter (sessionCfg free) env sched steps with
      | none => none
      | some σ =>
        if σ.r.pc = RPc.terminated then
          some { result := MainResult.terminated, session := some σ }
        else if σ.w.writing_done && decide (σ.r.pc = RPc.finished) then
          some { result := MainResult.returned 0, session := some σ }
        else some { result := MainResult.running, session := some σ }

/-! ## The states an iteration can lead to -/

/-- The state after a successful `open` of index `idx` and the increment of line 209. -/
def openedState (s : State) (idx : Nat) : State :=
  { s with file_index := idx + 1, file := { is_open := true, failed := false },
           files := (idx, 0) :: s.files, log := Event.opened idx :: s.log,
           filename := some idx }

/-- The state after a failed `open` of index `idx`. -/
def openFailedState (s : State) (idx : Nat) : State :=
  { s with file_index := idx, file := { is_open := false, failed := true },
           log := Event.openFailed idx :: s.log, filename := some idx,
           cerr := CerrLine.openFailed (some idx) :: s.cerr }

/-- The state after a failed `write` of `k` bytes and the `close` of line 231. -/
def writeFailedState (s : State) (k : Nat) : State :=
  { s with file := { is_open := false, failed := true },
           log := Event.closed :: Event.writeFailed k :: s.log,
           cerr := CerrLine.writeFailed s.filename :: s.cerr }

/-- The state after a successful `write` of `k` bytes that does not fill the file. -/
def wroteState (s : State) (k : Nat) : State :=
  { s with total_bytes_written := s.total_bytes_written + k,
           per_file_bytes_written := s.per_file_bytes_written + k,
           files := appendBytes k s.files, log := Event.wrote k :: s.log }

/-- The state after a successful `write` of `k` bytes that fills the file, and the rollover. -/
def rolledState (s : State) (k : Nat) : State :=
  { s with total_bytes_written := s.total_bytes_written + k,
           per_file_bytes_written := 0,
           file := { is_open := false, failed := false },
           files := appendBytes k s.files, log := Event.closed :: Event.wrote k :: s.log }

/-! ## Invariants (statements) -/

/-- Facts about the variables, the files and the log that hold at every point between two
calls. -/
structure SInv (p : Config) (env : Env) (s : State) : Prop where
  total_le : s.total_bytes_written ≤ p.total_bytes_to_write
  per_lt : s.per_file_bytes_written < p.max_file_size ∨ s.per_file_bytes_written = 0
  open_head : s.file.is_open = true → ∃ i rest, s.files = (i, s.per_file_bytes_written) :: rest
  tail_full : ∀ f ∈ s.files.tail, f.2 = p.max_file_size
  head_size : ∀ f ∈ s.files.head?, f.2 = s.per_file_bytes_written ∨
    (f.2 = p.max_file_size ∧ s.per_file_bytes_written = 0)
  sum_files : (s.files.map Prod.snd).sum = s.total_bytes_written
  idx_sorted : (s.files.map Prod.fst).Pairwise (fun a b => b < a)
  idx_lt : ∀ i ∈ s.files.map Prod.fst, i < s.file_index ∧ i ∉ env.existing
  idx_all : ∀ j, j < s.file_index → j ∈ env.existing ∨ j ∈ s.files.map Prod.fst
  handles_eq : handles s.log = if s.file.is_open then 1 else 0
  handles_le : ∀ l, l <:+ s.log → handles l ≤ 1
  wrote_sum : wroteSum s.log = s.total_bytes_written

/-- Every event of the log is one of an undisturbed session. -/
def Clean (l : List Event) : Prop := ∀ e ∈ l, e.ok = true

/-- Form of the log, given how the loop was left and whether `writing_done` is set: a failed
`open` is the last event before `done`; a failed `write` is followed by one `close` only. -/
def LogShape (ex : Option Exit) (dn : Bool) (log : List Event) : Prop :=
  ∃ l1, log = (if dn then [Event.done] else []) ++ l1 ∧
    match ex with
    | some Exit.openFailed => ∃ idx l0, l1 = Event.openFailed idx :: l0 ∧ Clean l0
    | some Exit.writeFailed =>
        ∃ k l0, l1 = Event.closed :: Event.writeFailed k :: l0 ∧ Clean l0
    | _ => Clean l1

/-- Facts that hold for the Writer thread between two of its steps. -/
structure Inv (p : Config) (env : Env) (t : Thread) : Prop where
  sinv : SInv p env t.s
  done_exit : t.writing_done = true → t.exit ≠ none
  done_closed : t.writing_done = true → t.s.file.is_open = false
  head_open : t.exit = none → (t.s.file.is_open = true ↔ 0 < t.s.per_file_bytes_written)
  head_ok : t.exit = none → t.s.file.failed = false
  head_full : t.exit = none → t.s.per_file_bytes_written = 0 →
    ∀ f ∈ t.s.files, f.2 = p.max_file_size
  head_pos : t.exit = none ∨ t.exit = some Exit.capacity → ∀ f ∈ t.s.files.head?, 0 < f.2
  fail_closed : t.exit = some Exit.openFailed ∨ t.exit = some Exit.writeFailed →
    t.s.file.is_open = false
  fail_room : t.exit = some Exit.writeFailed →
    t.s.total_bytes_written < p.total_bytes_to_write
  cap_exit : t.exit = some Exit.capacity →
    ¬ t.s.total_bytes_written < p.total_bytes_to_write
  shape : LogShape t.exit t.writing_done t.s.log
  head_cur : t.exit = none → t.s.per_file_bytes_written = currentSum t.s.log
  fail_cur : t.exit = some Exit.writeFailed →
    t.s.per_file_bytes_written = currentSum (beforeWriteFailure t.s.log)
  attempts : writeAttempts t.s.log ≤
    t.s.total_bytes_written + (if t.exit = some Exit.writeFailed then 1 else 0)

/-- Facts that hold at line 212, when a file is open and about to be written. -/
structure MidInv (p : Config) (env : Env) (u : State) : Prop where
  sinv : SInv p env u
  file_ok : u.file = { is_open := true, failed := false }
  room : u.total_bytes_written < p.total_bytes_to_write
  clean : Clean u.log
  att : writeAttempts u.log ≤ u.total_bytes_written
  cur : u.per_file_bytes_written = currentSum u.log

/-- What one loop iteration, begun in state `s` as iteration `n` and ending in state `s1` with
exit `e`, does to the counter, and what each way of leaving the loop means. -/
structure IterFacts (p : Config) (env : Env) (n : Nat) (s s1 : State) (e : Option Exit) :
    Prop where
  mono : s.total_bytes_written ≤ s1.total_bytes_written
  progress : e = none → s.total_bytes_written < s1.total_bytes_written
  write_fail : e = some Exit.writeFailed → env.writeOk n = false
  open_fail : e = some Exit.openFailed → env.openOk n = false
  zero : e = some Exit.zeroWrite → p.buffer_size = 0 ∨ p.max_file_size = 0

/-! ## Termination measure -/

/-- A bound on the number of steps the Writer still makes from `t`. -/
def stepsLeft (p : Config) (t : Thread) : Nat :=
  if t.writing_done then 0
  else
    match t.exit with
    | some _ => 1
    | none => (p.total_bytes_to_write - t.s.total_bytes_written) + 2

/-! ## Sample sessions -/

/-- A session of 10 bytes with files of at most 4 bytes and a buffer of 3 bytes. -/
def smallCfg : Config :=
  { total_bytes_to_write := 10, max_file_size := 4, buffer_size := 3 }

/-- A volume on which `filldata_0.bin` and `filldata_2.bin` exist and nothing fails. -/
def quietEnv : Env :=
  { existing := [0, 2], openOk := fun _ => true, writeOk := fun _ => true }

/-- The same volume; the write of loop iteration 3 fails. -/
def badWriteEnv : Env :=
  { existing := [0, 2], openOk := fun _ => true, writeOk := fun n => n != 3 }

/-- The same volume; the `open` of loop iteration 2 fails. -/
def badOpenEnv : Env :=
  { existing := [0, 2], openOk := fun n => n != 2, writeOk := fun _ => true }

/-- The scenario of the specification: 10 MiB to write, files of 4 MiB, a buffer of 1 MiB. -/
def mibCfg : Config :=
  { total_bytes_to_write := 10 * 2 ^ 20, max_file_size := 4 * 2 ^ 20, buffer_size := 2 ^ 20 }

/-- The same volume; every write fails. -/
def noWriteEnv : Env :=
  { existing := [0, 2], openOk := fun _ => true, writeOk := fun _ => false }

/-- The same volume; every `open` fails. -/
def noOpenEnv : Env :=
  { existing := [0, 2], openOk := fun _ => false, writeOk := fun _ => true }

/-- A confirmed run on a removable USB drive that is full. -/
def fullDrive : Preflight :=
  { confirmation := 'y', is_drive_removable := true, is_drive_usb := true,
    free_bytes_available := some 0 }

/-- A confirmed run on a removable drive with 3 bytes free that is not a USB device. -/
def otherDrive : Preflight :=
  { confirmation := 'y', is_drive_removable := true, is_drive_usb := false,
    free_bytes_available := some 3 }

/-- A confirmed run on a removable USB drive with 3 bytes free. -/
def tinyDrive : Preflight :=
  { confirmation := 'y', is_drive_removable := true, is_drive_usb := true,
    free_bytes_available := some 3 }

/-- The interleaving in which the Writer and the Reporter take turns, the Writer first. -/
def alternate (i : Nat) : Bool := i % 2 == 0

/-! ## Arithmetic of the counters -/

theorem usub_eq {a b : Nat} (hb : b ≤ a) (ha : a < ULL) : usub a b = a - b := by
  unfold usub
  have h : a + ULL - b = (a - b) + ULL := by omega
  rw [h, Nat.add_mod_right, Nat.mod_eq_of_lt (by omega)]

theorem uadd_eq {a b : Nat} (h : a + b < ULL) : uadd a b = a + b := by
  unfold uadd
  exact Nat.mod_eq_of_lt h

theorem writeSize_eq (p : Config) (s : State) (hwf : p.wf)
    (ht : s.total_bytes_written ≤ p.total_bytes_to_write)
    (hp : s.per_file_bytes_written ≤ p.max_file_size) :
    writeSize p s = min p.buffer_size (min (p.total_bytes_to_write - s.total_bytes_written)
      (p.max_file_size - s.per_file_bytes_written)) := by
  obtain ⟨hT, hL, hB⟩ := hwf
  unfold writeSize
  simp only [usub_eq ht hT, usub_eq hp hL]
  apply Nat.mod_eq_of_lt
  exact lt_of_le_of_lt (Nat.min_le_left _ _) hB

/-! ## The name scan -/

theorem le_foldr_max (l : List Nat) (x : Nat) (hx : x ∈ l) : x ≤ l.foldr max 0 := by
  induction l with
  | nil => simp at hx
  | cons a l ih =>
    simp only [List.foldr_cons]
    rcases List.mem_cons.mp hx with h | h
    · subst h; exact le_max_left _ _
    · exact le_trans (ih h) (le_max_right _ _)

theorem pathExists_lt_scanFuel (env : Env) (s : State) (i : Nat)
    (h : pathExists env s i = true) : i + 2 ≤ scanFuel env s := by
  unfold scanFuel
  have hm : i ∈ env.existing ++ s.files.map Prod.fst := by
    unfold pathExists at h
    simp only [Bool.or_eq_true, decide_eq_true_eq] at h
    exact List.mem_append.mpr h
  have := le_foldr_max _ i hm
  omega

theorem scan_some (env : Env) (s : State) (fuel idx : Nat)
    (h : scanFuel env s ≤ idx + fuel) (hf : 0 < fuel) :
    ∃ j, scan env s fuel idx = some j := by
  induction fuel generalizing idx with
  | zero => omega
  | succ f ih =>
    unfold scan
    by_cases hx : pathExists env s idx = true
    · rw [if_pos hx]
      have := pathExists_lt_scanFuel env s idx hx
      exact ih (idx + 1) (by omega) (by omega)
    · rw [if_neg hx]
      exact ⟨idx, rfl⟩

theorem scan_spec (env : Env) (s : State) (fuel idx j : Nat)
    (h : scan env s fuel idx = some j) :
    idx ≤ j ∧ pathExists env s j = false ∧
      ∀ k, idx ≤ k → k < j → pathExists env s k = true := by
  induction fuel generalizing idx with
  | zero => simp [scan] at h
  | succ f ih =>
    unfold scan at h
    by_cases hx : pathExists env s idx = true
    · rw [if_pos hx] at h
      obtain ⟨h1, h2, h3⟩ := ih (idx + 1) h
      refine ⟨by omega, h2, ?_⟩
      intro k hk1 hk2
      rcases Nat.eq_or_lt_of_le hk1 with e | e
      · subst e; exact hx
      · exact h3 k e hk2
    · rw [if_neg hx] at h
      cases h
      refine ⟨le_refl _, by simpa using hx, ?_⟩
      intro k hk1 hk2
      omega

/-! ## What one iteration does -/

theorem selectAndOpen_cases (env : Env) (n : Nat) (s : State)
    (hc : s.file.is_open = false) :
    ∃ idx, scan env s (scanFuel env s) s.file_index = some idx ∧
      ((env.openOk n = false ∧ selectAndOpen env n s = some (openFailedState s idx, true)) ∨
       (env.openOk n = true ∧ selectAndOpen env n s = some (openedState s idx, false))) := by
  obtain ⟨idx, hidx⟩ := scan_some env s (scanFuel env s) s.file_index
    (by omega) (by unfold scanFuel; omega)
  refine ⟨idx, hidx, ?_⟩
  unfold selectAndOpen
  rw [hidx]
  cases ho : env.openOk n
  · left
    simp [fileOpen, hc, ho, openFailedState]
  · right
    simp [fileOpen, hc, ho, openedState]

theorem writeChunk_cases (p : Config) (env : Env) (n : Nat) (u : State) (hwf : p.wf)
    (hf : u.file = { is_open := true, failed := false })
    (ht : u.total_bytes_written ≤ p.total_bytes_to_write)
    (hp : u.per_file_bytes_written ≤ p.max_file_size) :
    ∃ k, k = min p.buffer_size (min (p.total_bytes_to_write - u.total_bytes_written)
          (p.max_file_size - u.per_file_bytes_written)) ∧
      ((k = 0 ∧ writeChunk p env n u = (u, some Exit.zeroWrite)) ∨
       (0 < k ∧ env.writeOk n = false ∧
          writeChunk p env n u = (writeFailedState u k, some Exit.writeFailed)) ∨
       (0 < k ∧ env.writeOk n = true ∧ u.per_file_bytes_written + k < p.max_file_size ∧
          writeChunk p env n u = (wroteState u k, none)) ∨
       (0 < k ∧ env.writeOk n = true ∧ u.per_file_bytes_written + k = p.max_file_size ∧
          writeChunk p env n u = (rolledState u k, none))) := by
  refine ⟨_, rfl, ?_⟩
  have hws := writeSize_eq p u hwf ht hp
  obtain ⟨hT, hL, hB⟩ := hwf
  set k := min p.buffer_size (min (p.total_bytes_to_write - u.total_bytes_written)
          (p.max_file_size - u.per_file_bytes_written)) with hk
  have hk1 : k ≤ p.total_bytes_to_write - u.total_bytes_written :=
    le_trans (Nat.min_le_right _ _) (Nat.min_le_left _ _)
  have hk2 : k ≤ p.max_file_size - u.per_file_bytes_written :=
    le_trans (Nat.min_le_right _ _) (Nat.min_le_right _ _)
  by_cases h0 : k = 0
  · left
    refine ⟨h0, ?_⟩
    unfold writeChunk
    simp [hws, h0]
  · right
    have hpos : 0 < k := Nat.pos_of_ne_zero h0
    cases hw : env.writeOk n
    · left
      refine ⟨hpos, rfl, ?_⟩
      unfold writeChunk
      simp [hws, h0, fileWrite, hf, hw, fileClose, writeFailedState]
    · right
      have e1 : uadd u.total_bytes_written k = u.total_bytes_written + k :=
        uadd_eq (by omega)
      have e2 : uadd u.per_file_bytes_written k = u.per_file_bytes_written + k :=
        uadd_eq (by omega)
      by_cases hroll : u.per_file_bytes_written + k < p.max_file_size
      · left
        refine ⟨hpos, rfl, hroll, ?_⟩
        unfold writeChunk
        simp [hws, h0, fileWrite, hf, hw, e1, e2, hroll, wroteState]
      · right
        have heq : u.per_file_bytes_written + k = p.max_file_size := by omega
        refine ⟨hpos, rfl, heq, ?_⟩
        unfold writeChunk
        simp [hws, h0, fileWrite, hf, hw, fileClose, e1, e2, heq, rolledState]

/-! ## Invariants of the Writer -/

theorem SInv_init (p : Config) (env : Env) : SInv p env init.s := by
  constructor <;> simp [init, handles, wroteSum]

theorem SInv_opened (p : Config) (env : Env) (s : State) (idx : Nat) (h : SInv p env s)
    (hc : s.file.is_open = false) (hp : s.per_file_bytes_written = 0)
    (hfull : ∀ f ∈ s.files, f.2 = p.max_file_size)
    (hscan : scan env s (scanFuel env s) s.file_index = some idx) :
    SInv p env (openedState s idx) := by
  obtain ⟨hle, hfree, hbelow⟩ := scan_spec env s _ _ _ hscan
  have hfree1 : idx ∉ env.existing ∧ idx ∉ s.files.map Prod.fst := by
    unfold pathExists at hfree
    simpa using hfree
  constructor
  · exact h.total_le
  · exact h.per_lt
  · intro _
    exact ⟨idx, s.files, by simp [openedState, hp]⟩
  · intro f hf
    exact hfull f (by simpa [openedState] using hf)
  · intro f hf
    left
    simp only [openedState, List.head?_cons, Option.mem_def, Option.some.injEq] at hf
    subst hf
    exact hp.symm
  · simpa [openedState] using h.sum_files
  · simp only [openedState, List.map_cons, List.pairwise_cons]
    refine ⟨?_, h.idx_sorted⟩
    intro a ha
    have := (h.idx_lt a ha).1
    omega
  · intro i hi
    simp only [openedState, List.map_cons, List.mem_cons] at hi
    rcases hi with e | e
    · subst e
      exact ⟨by simp [openedState], hfree1.1⟩
    · have := h.idx_lt i e
      exact ⟨by simp only [openedState]; omega, this.2⟩
  · intro j hj
    simp only [openedState] at hj
    simp only [openedState, List.map_cons, List.mem_cons]
    by_cases h1 : j < s.file_index
    · rcases h.idx_all j h1 with e | e
      · exact Or.inl e
      · exact Or.inr (Or.inr e)
    · by_cases h2 : j = idx
      · exact Or.inr (Or.inl h2)
      · have := hbelow j (by omega) (by omega)
        unfold pathExists at this
        simp only [Bool.or_eq_true, decide_eq_true_eq] at this
        rcases this with e | e
        · exact Or.inl e
        · exact Or.inr (Or.inr e)
  · have := h.handles_eq
    simp only [hc] at this
    simp [openedState, handles, this]
  · intro l hl
    simp only [openedState] at hl
    rcases List.suffix_cons_iff.mp hl with e | e
    · subst e
      have := h.handles_eq
      simp only [hc] at this
      simp [handles, this]
    · exact h.handles_le l e
  · simpa [openedState, wroteSum] using h.wrote_sum

theorem SInv_openFailed (p : Config) (env : Env) (s : State) (idx : Nat) (h : SInv p env s)
    (hc : s.file.is_open = false)
    (hscan : scan env s (scanFuel env s) s.file_index = some idx) :
    SInv p env (openFailedState s idx) := by
  obtain ⟨hle, hfree, hbelow⟩ := scan_spec env s _ _ _ hscan
  constructor
  · exact h.total_le
  · exact h.per_lt
  · intro hx
    simp [openFailedState] at hx
  · exact h.tail_full
  · exact h.head_size
  · exact h.sum_files
  · exact h.idx_sorted
  · intro i hi
    have := h.idx_lt i hi
    exact ⟨by simp only [openFailedState]; omega, this.2⟩
  · intro j hj
    simp only [openFailedState] at hj
    simp only [openFailedState]
    by_cases h1 : j < s.file_index
    · exact h.idx_all j h1
    · have := hbelow j (by omega) (by omega)
      unfold pathExists at this
      simpa using this
  · have := h.handles_eq
    simp only [hc] at this
    simp [openFailedState, handles, this]
  · intro l hl
    simp only [openFailedState] at hl
    rcases List.suffix_cons_iff.mp hl with e | e
    · subst e
      have := h.handles_eq
      simp only [hc] at this
      simp [handles, this]
    · exact h.handles_le l e
  · simpa [openFailedState, wroteSum] using h.wrote_sum

theorem SInv_writeFailed (p : Config) (env : Env) (u : State) (k : Nat) (h : SInv p env u)
    (ho : u.file.is_open = true) : SInv p env (writeFailedState u k) := by
  have hh := h.handles_eq
  simp only [ho, if_true] at hh
  constructor
  · exact h.total_le
  · exact h.per_lt
  · intro hx
    simp [writeFailedState] at hx
  · exact h.tail_full
  · exact h.head_size
  · exact h.sum_files
  · exact h.idx_sorted
  · exact h.idx_lt
  · exact h.idx_all
  · simp [writeFailedState, handles, hh]
  · intro l hl
    simp only [writeFailedState] at hl
    rcases List.suffix_cons_iff.mp hl with e | e
    · subst e
      simp [handles, hh]
    · rcases List.suffix_cons_iff.mp e with e1 | e1
      · subst e1
        simp [handles, hh]
      · exact h.handles_le l e1
  · simpa [writeFailedState, wroteSum] using h.wrote_sum

theorem SInv_wrote (p : Config) (env : Env) (u : State) (k : Nat) (h : SInv p env u)
    (ho : u.file.is_open = true)
    (hk : k ≤ p.total_bytes_to_write - u.total_bytes_written)
    (hroll : u.per_file_bytes_written + k < p.max_file_size) :
    SInv p env (wroteState u k) := by
  have hh := h.handles_eq
  simp only [ho, if_true] at hh
  obtain ⟨i, rest, hfiles⟩ := h.open_head ho
  have htl := h.total_le
  have hfst : (appendBytes k u.files).map Prod.fst = u.files.map Prod.fst := by
    simp [hfiles, appendBytes]
  constructor
  · simp only [wroteState]; omega
  · left; simpa [wroteState] using hroll
  · intro _
    exact ⟨i, rest, by simp [wroteState, hfiles, appendBytes]⟩
  · intro f hf
    have := h.tail_full f
    simp only [hfiles, List.tail_cons] at this
    simp only [wroteState, hfiles, appendBytes, List.tail_cons] at hf
    exact this hf
  · intro f hf
    left
    simp only [wroteState, hfiles, appendBytes, List.head?_cons, Option.mem_def,
      Option.some.injEq] at hf
    subst hf
    rfl
  · have := h.sum_files
    simp only [hfiles, List.map_cons, List.sum_cons] at this
    simp only [wroteState, hfiles, appendBytes, List.map_cons, List.sum_cons]
    omega
  · simp only [wroteState, hfst]; exact h.idx_sorted
  · simp only [wroteState, hfst]; exact h.idx_lt
  · simp only [wroteState, hfst]; exact h.idx_all
  · simp [wroteState, handles, hh, ho]
  · intro l hl
    simp only [wroteState] at hl
    rcases List.suffix_cons_iff.mp hl with e | e
    · subst e
      simp [handles, hh]
    · exact h.handles_le l e
  · have := h.wrote_sum
    simp only [wroteState, wroteSum]
    omega

theorem SInv_rolled (p : Config) (env : Env) (u : State) (k : Nat) (h : SInv p env u)
    (ho : u.file.is_open = true)
    (hk : k ≤ p.total_bytes_to_write - u.total_bytes_written)
    (hroll : u.per_file_bytes_written + k = p.max_file_size) :
    SInv p env (rolledState u k) := by
  have hh := h.handles_eq
  simp only [ho, if_true] at hh
  obtain ⟨i, rest, hfiles⟩ := h.open_head ho
  have htl := h.total_le
  have hfst : (appendBytes k u.files).map Prod.fst = u.files.map Prod.fst := by
    simp [hfiles, appendBytes]
  constructor
  · simp only [rolledState]; omega
  · right; rfl
  · intro hx
    simp [rolledState] at hx
  · intro f hf
    have := h.tail_full f
    simp only [hfiles, List.tail_cons] at this
    simp only [rolledState, hfiles, appendBytes, List.tail_cons] at hf
    exact this hf
  · intro f hf
    right
    simp only [rolledState, hfiles, appendBytes, List.head?_cons, Option.mem_def,
      Option.some.injEq] at hf
    subst hf
    exact ⟨hroll, rfl⟩
  · have := h.sum_files
    simp only [hfiles, List.map_cons, List.sum_cons] at this
    simp only [rolledState, hfiles, appendBytes, List.map_cons, List.sum_cons]
    omega
  · simp only [rolledState, hfst]; exact h.idx_sorted
  · simp only [rolledState, hfst]; exact h.idx_lt
  · simp only [rolledState, hfst]; exact h.idx_all
  · simp [rolledState, handles, hh]
  · intro l hl
    simp only [rolledState] at hl
    rcases List.suffix_cons_iff.mp hl with e | e
    · subst e
      simp [handles, hh]
    · rcases List.suffix_cons_iff.mp e with e1 | e1
      · subst e1
        simp [handles, hh]
      · exact h.handles_le l e1
  · have := h.wrote_sum
    simp only [rolledState, wroteSum]
    omega

theorem SInv_finish (p : Config) (env : Env) (s : State) (h : SInv p env s) :
    SInv p env (finish s) ∧ (finish s).file.is_open = false := by
  have hh := h.handles_eq
  cases ho : s.file.is_open
  · simp only [ho] at hh
    have e : finish s = { s with log := Event.done :: s.log } := by
      simp [finish, ho]
    rw [e]
    refine ⟨?_, ho⟩
    constructor
    · exact h.total_le
    · exact h.per_lt
    · exact h.open_head
    · exact h.tail_full
    · exact h.head_size
    · exact h.sum_files
    · exact h.idx_sorted
    · exact h.idx_lt
    · exact h.idx_all
    · simp [handles, hh, ho]
    · intro l hl
      rcases List.suffix_cons_iff.mp hl with e | e
      · subst e
        simp [handles, hh]
      · exact h.handles_le l e
    · simpa [wroteSum] using h.wrote_sum
  · simp only [ho, if_true] at hh
    have e : finish s = { s with
        file := { is_open := false, failed := s.file.failed }
        log := Event.done :: Event.closed :: s.log } := by
      simp [finish, ho, fileClose]
    rw [e]
    refine ⟨?_, rfl⟩
    constructor
    · exact h.total_le
    · exact h.per_lt
    · intro hx
      simp at hx
    · exact h.tail_full
    · exact h.head_size
    · exact h.sum_files
    · exact h.idx_sorted
    · exact h.idx_lt
    · exact h.idx_all
    · simp [handles, hh]
    · intro l hl
      rcases List.suffix_cons_iff.mp hl with e | e
      · subst e
        simp [handles, hh]
      · rcases List.suffix_cons_iff.mp e with e1 | e1
        · subst e1
          simp [handles, hh]
        · exact h.handles_le l e1
    · simpa [wroteSum] using h.wrote_sum

theorem Inv_init (p : Config) (env : Env) : Inv p env init := by
  constructor
  · exact SInv_init p env
  all_goals simp [init, LogShape, Clean, writeAttempts, currentSum]

theorem Clean_cons {e : Event} {l : List Event} (he : e.ok = true) (hl : Clean l) :
    Clean (e :: l) := by
  intro x hx
  rcases List.mem_cons.mp hx with h | h
  · subst h; exact he
  · exact hl x h

theorem Inv_chunk (p : Config) (env : Env) (n m : Nat) (u s1 : State) (e : Option Exit)
    (hwf : p.wf) (h : MidInv p env u) (hc : writeChunk p env n u = (s1, e)) :
    Inv p env { s := s1, iter := m, exit := e, writing_done := false } ∧
      IterFacts p env n u s1 e ∧ e ≠ some Exit.openFailed := by
  have hs := h.sinv
  have ho : u.file.is_open = true := by rw [h.file_ok]
  have hple : u.per_file_bytes_written ≤ p.max_file_size := by
    rcases hs.per_lt with x | x <;> omega
  obtain ⟨k, hk, hcases⟩ := writeChunk_cases p env n u hwf h.file_ok hs.total_le hple
  have hk1 : k ≤ p.total_bytes_to_write - u.total_bytes_written := by
    rw [hk]; exact le_trans (Nat.min_le_right _ _) (Nat.min_le_left _ _)
  have hroom := h.room
  have hatt := h.att
  have hper := hs.per_lt
  rcases hcases with ⟨hz, hr⟩ | ⟨hpos, hwo, hr⟩ | ⟨hpos, _, hroll, hr⟩ | ⟨hpos, _, hroll, hr⟩
  · rw [hr] at hc
    cases hc
    refine ⟨?_, ⟨le_refl _, by simp, by simp, by simp, fun _ => by omega⟩, by simp⟩
    constructor
    · exact hs
    all_goals simp
    · exact ⟨u.log, rfl, h.clean⟩
    · exact hatt
  · rw [hr] at hc
    cases hc
    refine ⟨?_, ⟨le_refl _, by simp, fun _ => hwo, by simp, by simp⟩, by simp⟩
    constructor
    · exact SInv_writeFailed p env u k hs ho
    case fail_cur =>
      intro _
      simpa [writeFailedState, beforeWriteFailure] using h.cur
    all_goals simp
    · simp [writeFailedState]
    · simpa [writeFailedState] using hroom
    · exact ⟨_, rfl, k, u.log, rfl, h.clean⟩
    · simp only [writeFailedState, writeAttempts]; omega
  · rw [hr] at hc
    cases hc
    refine ⟨?_, ⟨by simp only [wroteState]; omega, by intro _; simp only [wroteState]; omega,
      by simp, by simp, by simp⟩, by simp⟩
    obtain ⟨i, rest, hfiles⟩ := hs.open_head ho
    constructor
    · exact SInv_wrote p env u k hs ho hk1 hroll
    case head_cur =>
      intro _
      have := h.cur
      simp only [wroteState, currentSum]
      omega
    all_goals simp
    · simp only [wroteState, ho, true_iff]; omega
    · simp [wroteState, h.file_ok]
    · intro hx
      simp only [wroteState] at hx
      omega
    · simp only [wroteState, hfiles, appendBytes, List.head?_cons, Option.some.injEq]
      intro a b hab
      cases hab
      omega
    · exact ⟨_, rfl, Clean_cons (by simpa [Event.ok] using hpos) h.clean⟩
    · simp only [wroteState, writeAttempts]; omega
  · rw [hr] at hc
    cases hc
    refine ⟨?_, ⟨by simp only [rolledState]; omega, by intro _; simp only [rolledState]; omega,
      by simp, by simp, by simp⟩, by simp⟩
    obtain ⟨i, rest, hfiles⟩ := hs.open_head ho
    have htail := hs.tail_full
    simp only [hfiles, List.tail_cons] at htail
    constructor
    · exact SInv_rolled p env u k hs ho hk1 hroll
    case head_cur =>
      intro _
      simp [rolledState, currentSum]
    all_goals simp
    · simp [rolledState]
    · simp [rolledState]
    · intro _ a b hab
      simp only [rolledState, hfiles, appendBytes, List.mem_cons] at hab
      rcases hab with x | x
      · cases x; exact hroll
      · exact htail _ x
    · simp only [rolledState, hfiles, appendBytes, List.head?_cons, Option.some.injEq]
      intro a b hab
      cases hab
      omega
    · refine ⟨_, rfl, ?_⟩
      simp only [rolledState]
      exact Clean_cons rfl (Clean_cons (by simpa [Event.ok] using hpos) h.clean)
    · simp only [rolledState, writeAttempts]; omega

theorem Clean_of_running {t : Thread} {p : Config} {env : Env} (h : Inv p env t)
    (hd : t.writing_done = false)
    (he : t.exit ≠ some Exit.openFailed ∧ t.exit ≠ some Exit.writeFailed) :
    Clean t.s.log := by
  obtain ⟨l1, h1, h2⟩ := h.shape
  simp only [hd, Bool.false_eq_true, if_false, List.nil_append] at h1
  rw [h1]
  rcases hx : t.exit with _ | x
  · simpa [hx] using h2
  · cases x
    · simpa [hx] using h2
    · exact absurd hx he.1
    · simpa [hx] using h2
    · exact absurd hx he.2

theorem body_inv (p : Config) (env : Env) (t : Thread) (hwf : p.wf) (h : Inv p env t)
    (he : t.exit = none) (hd : t.writing_done = false) :
    ∃ s1 e, body p env t.iter t.s = some (s1, e) ∧
      Inv p env { s := s1, iter := t.iter + 1, exit := e, writing_done := false } ∧
      IterFacts p env t.iter t.s s1 e := by
  have hs := h.sinv
  have hclean : Clean t.s.log := Clean_of_running h hd (by simp [he])
  have hatt : writeAttempts t.s.log ≤ t.s.total_bytes_written := by
    have := h.attempts
    simpa [he] using this
  unfold body
  by_cases hlt : t.s.total_bytes_written < p.total_bytes_to_write
  · rw [if_pos hlt]
    by_cases hper : t.s.per_file_bytes_written = 0
    · rw [if_pos hper]
      have hclosed : t.s.file.is_open = false := by
        have := h.head_open he
        cases hb : t.s.file.is_open
        · rfl
        · have := this.mp hb
          omega
      obtain ⟨idx, hscan, hcase⟩ := selectAndOpen_cases env t.iter t.s hclosed
      rcases hcase with ⟨hoo, hr⟩ | ⟨_, hr⟩
      · rw [hr]
        refine ⟨_, _, rfl, ?_, ⟨le_refl _, by simp, by simp, fun _ => hoo, by simp⟩⟩
        constructor
        · exact SInv_openFailed p env t.s idx hs hclosed hscan
        all_goals simp
        · simp [openFailedState]
        · exact ⟨_, rfl, idx, t.s.log, rfl, hclean⟩
        · simpa [openFailedState, writeAttempts] using hatt
      · rw [hr]
        have hmid : MidInv p env (openedState t.s idx) := by
          constructor
          · exact SInv_opened p env t.s idx hs hclosed hper (h.head_full he hper) hscan
          · rfl
          · exact hlt
          · exact Clean_cons rfl hclean
          · simpa [openedState, writeAttempts] using hatt
          · simp [openedState, currentSum, hper]
        obtain ⟨hi, hfacts, hno⟩ := Inv_chunk p env t.iter (t.iter + 1) (openedState t.s idx)
          (writeChunk p env t.iter (openedState t.s idx)).1
          (writeChunk p env t.iter (openedState t.s idx)).2 hwf hmid rfl
        exact ⟨_, _, rfl, hi, ⟨hfacts.mono, hfacts.progress, hfacts.write_fail,
          fun hx => absurd hx hno, hfacts.zero⟩⟩
    · rw [if_neg hper]
      have hopen : t.s.file.is_open = true := (h.head_open he).mpr (by omega)
      have hmid : MidInv p env t.s := by
        constructor
        · exact hs
        · have := h.head_ok he
          rcases hf : t.s.file with ⟨a, b⟩
          rw [hf] at hopen this
          simp only at hopen this
          rw [hopen, this]
        · exact hlt
        · exact hclean
        · exact hatt
        · exact h.head_cur he
      obtain ⟨hi, hfacts, hno⟩ := Inv_chunk p env t.iter (t.iter + 1) t.s
        (writeChunk p env t.iter t.s).1 (writeChunk p env t.iter t.s).2 hwf hmid rfl
      exact ⟨_, _, rfl, hi, ⟨hfacts.mono, hfacts.progress, hfacts.write_fail,
        fun hx => absurd hx hno, hfacts.zero⟩⟩
  · rw [if_neg hlt]
    refine ⟨_, _, rfl, ?_, ⟨le_refl _, by simp, by simp, by simp, by simp⟩⟩
    constructor
    · exact hs
    all_goals simp
    · intro a b hab
      exact h.head_pos (Or.inl he) (a, b) hab
    · have := hs.total_le
      omega
    · exact ⟨_, rfl, hclean⟩
    · exact hatt

theorem finish_eq (s : State) :
    finish s = { s with
      file := { is_open := false, failed := s.file.failed }
      log := Event.done :: (if s.file.is_open then Event.closed :: s.log else s.log) } := by
  rcases s with ⟨a, b, c, ⟨o, f⟩, d, e, g, h⟩
  cases o <;> simp [finish, fileClose]

theorem finish_inv (p : Config) (env : Env) (t : Thread) (h : Inv p env t) (e : Exit)
    (he : t.exit = some e) (hd : t.writing_done = false) :
    Inv p env { t with s := finish t.s, writing_done := true } := by
  have hf := finish_eq t.s
  obtain ⟨l1, h1, h2⟩ := h.shape
  simp only [hd, Bool.false_eq_true, if_false, List.nil_append] at h1
  constructor
  · exact (SInv_finish p env t.s h.sinv).1
  · intro _
    simp [he]
  · intro _
    exact (SInv_finish p env t.s h.sinv).2
  · intro hx
    simp [he] at hx
  · intro hx
    simp [he] at hx
  · intro hx
    simp [he] at hx
  · intro hx
    have := h.head_pos hx
    simpa [hf] using this
  · intro _
    exact (SInv_finish p env t.s h.sinv).2
  · intro hx
    have := h.fail_room hx
    simpa [hf] using this
  · intro hx
    have := h.cap_exit hx
    simpa [hf] using this
  · refine ⟨if t.s.file.is_open then Event.closed :: t.s.log else t.s.log, by simp [hf], ?_⟩
    simp only [he] at h2 ⊢
    cases e
    · simp only at h2 ⊢
      rw [← h1] at h2
      split
      · exact Clean_cons rfl h2
      · exact h2
    · have hc := h.fail_closed (Or.inl he)
      simp only [hc, Bool.false_eq_true, if_false]
      rw [h1]
      exact h2
    · simp only at h2 ⊢
      rw [← h1] at h2
      split
      · exact Clean_cons rfl h2
      · exact h2
    · have hc := h.fail_closed (Or.inr he)
      simp only [hc, Bool.false_eq_true, if_false]
      rw [h1]
      exact h2
  · intro hx
    simp [he] at hx
  · intro hx
    have hc := h.fail_closed (Or.inr hx)
    have := h.fail_cur hx
    simpa [hf, hc, beforeWriteFailure] using this
  · have := h.attempts
    simp only [hf]
    split
    · simpa [writeAttempts] using this
    · simpa [writeAttempts] using this

theorem wstep_inv (p : Config) (env : Env) (t : Thread) (hwf : p.wf) (h : Inv p env t) :
    ∃ t1, wstep p env t = some t1 ∧ Inv p env t1 := by
  unfold wstep
  cases hd : t.writing_done
  · rcases he : t.exit with _ | e
    · obtain ⟨s1, e1, hb, hi, _⟩ := body_inv p env t hwf h he hd
      simp only [Bool.false_eq_true, if_false, hb]
      exact ⟨_, rfl, hi⟩
    · simp only [Bool.false_eq_true, if_false]
      have hfi := finish_inv p env t h e he hd
      rw [he] at hfi
      exact ⟨_, rfl, hfi⟩
  · simp only [if_true]
    exact ⟨t, rfl, h⟩

theorem after_some (p : Config) (env : Env) (hwf : p.wf) (k : Nat) :
    ∃ t, after p env k = some t ∧ Inv p env t := by
  induction k with
  | zero => exact ⟨init, rfl, Inv_init p env⟩
  | succ k ih =>
    obtain ⟨t, ht, hi⟩ := ih
    obtain ⟨t1, h1, hi1⟩ := wstep_inv p env t hwf hi
    exact ⟨t1, by simp [after, ht, h1], hi1⟩

theorem Reach_inv (p : Config) (env : Env) (hwf : p.wf) (t : Thread) (h : Reach p env t) :
    Inv p env t := by
  obtain ⟨k, hk⟩ := h
  obtain ⟨t1, h1, hi⟩ := after_some p env hwf k
  rw [hk] at h1
  cases h1
  exact hi

/-! ## Termination of the Writer -/

theorem wstep_decreases (p : Config) (env : Env) (t : Thread) (hwf : p.wf) (h : Inv p env t)
    (hd : t.writing_done = false) :
    ∃ t1, wstep p env t = some t1 ∧ Inv p env t1 ∧ stepsLeft p t1 < stepsLeft p t := by
  unfold wstep
  rcases he : t.exit with _ | e
  · obtain ⟨s1, e1, hb, hi, hprog⟩ := body_inv p env t hwf h he hd
    simp only [hd, Bool.false_eq_true, if_false, hb]
    refine ⟨_, rfl, hi, ?_⟩
    have hle := hi.sinv.total_le
    simp only at hle
    rcases e1 with _ | x
    · have := hprog.progress rfl
      simp only [stepsLeft, hd, he, Bool.false_eq_true, if_false]
      omega
    · simp only [stepsLeft, hd, he, Bool.false_eq_true, if_false]
      omega
  · simp only [hd, Bool.false_eq_true, if_false]
    have hfi := finish_inv p env t h e he hd
    rw [he] at hfi
    refine ⟨_, rfl, hfi, ?_⟩
    simp [stepsLeft, hd, he]

theorem run_done (p : Config) (env : Env) (fuel : Nat) (t : Thread)
    (hd : t.writing_done = true) : run p env fuel t = some t := by
  cases fuel <;> simp [run, hd]

theorem Reach_step (p : Config) (env : Env) (t t1 : Thread) (h : Reach p env t)
    (hs : wstep p env t = some t1) : Reach p env t1 := by
  obtain ⟨k, hk⟩ := h
  exact ⟨k + 1, by simp [after, hk, hs]⟩

theorem run_terminates (p : Config) (env : Env) (hwf : p.wf) (m : Nat) :
    ∀ t, Reach p env t → stepsLeft p t ≤ m →
      ∃ t1, t1.writing_done = true ∧ Reach p env t1 ∧
        ∀ fuel, m ≤ fuel → run p env fuel t = some t1 := by
  induction m with
  | zero =>
    intro t hr hm
    have hd : t.writing_done = true := by
      cases hd : t.writing_done
      · unfold stepsLeft at hm
        simp only [hd, Bool.false_eq_true, if_false] at hm
        rcases he : t.exit with _ | e
        · simp only [he] at hm
          omega
        · simp only [he] at hm
          omega
      · rfl
    exact ⟨t, hd, hr, fun fuel _ => run_done p env fuel t hd⟩
  | succ m ih =>
    intro t hr hm
    cases hd : t.writing_done
    · obtain ⟨t1, hs, _, hlt⟩ := wstep_decreases p env t hwf (Reach_inv p env hwf t hr) hd
      obtain ⟨t2, hd2, hr2, hrun⟩ := ih t1 (Reach_step p env t t1 hr hs) (by omega)
      refine ⟨t2, hd2, hr2, ?_⟩
      intro fuel hfuel
      obtain ⟨f, rfl⟩ : ∃ f, fuel = f + 1 := ⟨fuel - 1, by omega⟩
      simp only [run, hd, Bool.false_eq_true, if_false, hs]
      exact hrun f (by omega)
    · exact ⟨t, hd, hr, fun fuel _ => run_done p env fuel t hd⟩

theorem writer_terminates (p : Config) (env : Env) (hwf : p.wf) :
    ∃ t, t.writing_done = true ∧ Reach p env t ∧
      ∀ fuel, p.total_bytes_to_write + 2 ≤ fuel → run p env fuel init = some t := by
  apply run_terminates p env hwf (p.total_bytes_to_write + 2) init ⟨0, rfl⟩
  simp [stepsLeft, init]

theorem writer_result (p : Config) (env : Env) (hwf : p.wf) (t : Thread)
    (h : writer p env = some t) :
    t.writing_done = true ∧ Reach p env t ∧ Inv p env t := by
  obtain ⟨t1, hd, hr, hrun⟩ := writer_terminates p env hwf
  have := hrun (p.total_bytes_to_write + 2) (le_refl _)
  unfold writer at h
  rw [this] at h
  cases h
  exact ⟨hd, hr, Reach_inv p env hwf _ hr⟩

/-! ## Steps of a reachable Writer -/

theorem wstep_total_mono (p : Config) (env : Env) (t t1 : Thread) (hwf : p.wf)
    (h : Inv p env t) (hs : wstep p env t = some t1) :
    t.s.total_bytes_written ≤ t1.s.total_bytes_written := by
  unfold wstep at hs
  cases hd : t.writing_done
  · rcases he : t.exit with _ | e
    · obtain ⟨s1, e1, hb, _, hfacts⟩ := body_inv p env t hwf h he hd
      simp only [hd, Bool.false_eq_true, if_false, he, hb, Option.some.injEq] at hs
      subst hs
      exact hfacts.mono
    · simp only [hd, Bool.false_eq_true, if_false, he, Option.some.injEq] at hs
      subst hs
      simp [finish_eq]
  · simp only [hd, if_true, Option.some.injEq] at hs
    subst hs
    exact le_refl _

theorem after_succ (p : Config) (env : Env) (hwf : p.wf) (k : Nat) :
    ∃ t t1, after p env k = some t ∧ after p env (k + 1) = some t1 ∧
      wstep p env t = some t1 ∧ Inv p env t ∧ Inv p env t1 := by
  obtain ⟨t, ht, hi⟩ := after_some p env hwf k
  obtain ⟨t1, h1, hi1⟩ := wstep_inv p env t hwf hi
  exact ⟨t, t1, ht, by simp [after, ht, h1], h1, hi, hi1⟩

theorem nofail_after (p : Config) (env : Env) (hwf : p.wf) (hB : 0 < p.buffer_size)
    (hL : 0 < p.max_file_size) (ho : ∀ n, env.openOk n = true)
    (hw : ∀ n, env.writeOk n = true) (k : Nat) :
    ∃ t, after p env k = some t ∧ Inv p env t ∧
      (t.exit = none ∨ t.exit = some Exit.capacity) := by
  induction k with
  | zero => exact ⟨init, rfl, Inv_init p env, Or.inl rfl⟩
  | succ k ih =>
    obtain ⟨t, ht, hi, hex⟩ := ih
    obtain ⟨t1, hs, hi1⟩ := wstep_inv p env t hwf hi
    refine ⟨t1, by simp [after, ht, hs], hi1, ?_⟩
    unfold wstep at hs
    cases hd : t.writing_done
    · rcases he : t.exit with _ | e
      · obtain ⟨s1, e1, hb, _, hfacts⟩ := body_inv p env t hwf hi he hd
        simp only [hd, Bool.false_eq_true, if_false, he, hb, Option.some.injEq] at hs
        subst hs
        rcases e1 with _ | x
        · exact Or.inl rfl
        · cases x
          · exact Or.inr rfl
          · have := hfacts.open_fail rfl
            rw [ho] at this
            cases this
          · have := hfacts.zero rfl
            omega
          · have := hfacts.write_fail rfl
            rw [hw] at this
            cases this
      · simp only [hd, Bool.false_eq_true, if_false, he, Option.some.injEq] at hs
        subst hs
        simpa [he] using hex
    · simp only [hd, if_true, Option.some.injEq] at hs
      subst hs
      exact hex

theorem map_snd_replicate (l : List (Nat × Nat)) (c : Nat) (h : ∀ f ∈ l, f.2 = c) :
    l.map Prod.snd = List.replicate l.length c := by
  induction l with
  | nil => rfl
  | cons a l ih =>
    simp only [List.map_cons, List.length_cons, List.replicate_succ]
    rw [ih (fun f hf => h f (List.mem_cons_of_mem _ hf)), h a (List.mem_cons_self _ _)]

theorem ceil_div (T L : Nat) (hL : 0 < L) :
    T / L + (if 0 < T % L then 1 else 0) = (T + L - 1) / L := by
  symm
  have hdm := Nat.div_add_mod T L
  have hmod := Nat.mod_lt T hL
  have hx : (T / L + 1) * L = L * (T / L) + L := by ring
  have hy : (T / L + 1 + 1) * L = L * (T / L) + L + L := by ring
  have hz : T / L * L = L * (T / L) := by ring
  split
  · apply Nat.div_eq_of_lt_le
    · rw [hx]; omega
    · rw [hy]; omega
  · apply Nat.div_eq_of_lt_le
    · rw [Nat.add_zero, hz]; omega
    · rw [Nat.add_zero, hx]; omega

theorem Clean_not_mem {l : List Event} (h : Clean l) (e : Event) (he : e.ok = false) :
    e ∉ l := by
  intro hx
  have := h e hx
  rw [he] at this
  cases this

theorem shape_done {ex : Option Exit} {log : List Event} (h : LogShape ex true log) :
    ∃ l1, log = Event.done :: l1 ∧ Event.done ∉ l1 := by
  obtain ⟨l1, h1, h2⟩ := h
  refine ⟨l1, by simpa using h1, ?_⟩
  rcases ex with _ | x
  · exact Clean_not_mem h2 _ rfl
  · cases x
    · exact Clean_not_mem h2 _ rfl
    · obtain ⟨idx, l0, e, hc⟩ := h2
      rw [e]
      simp only [List.mem_cons, reduceCtorEq, false_or]
      exact Clean_not_mem hc _ rfl
    · exact Clean_not_mem h2 _ rfl
    · obtain ⟨k, l0, e, hc⟩ := h2
      rw [e]
      simp only [List.mem_cons, reduceCtorEq, false_or]
      exact Clean_not_mem hc _ rfl

theorem shape_writeFailed {ex : Option Exit} {log : List Event} {k : Nat}
    (h : LogShape ex true log) (hk : Event.writeFailed k ∈ log) :
    ex = some Exit.writeFailed ∧
      ∃ l0, log = Event.done :: Event.closed :: Event.writeFailed k :: l0 ∧ Clean l0 := by
  obtain ⟨l1, h1, h2⟩ := h
  simp only [if_true, List.singleton_append] at h1
  rw [h1] at hk
  simp only [List.mem_cons, reduceCtorEq, false_or] at hk
  rcases ex with _ | x
  · exact absurd hk (Clean_not_mem h2 _ rfl)
  · cases x
    · exact absurd hk (Clean_not_mem h2 _ rfl)
    · obtain ⟨idx, l0, e, hc⟩ := h2
      rw [e] at hk
      simp only [List.mem_cons, reduceCtorEq, false_or] at hk
      exact absurd hk (Clean_not_mem hc _ rfl)
    · exact absurd hk (Clean_not_mem h2 _ rfl)
    · obtain ⟨k1, l0, e, hc⟩ := h2
      rw [e] at hk
      simp only [List.mem_cons, reduceCtorEq, false_or, Event.writeFailed.injEq] at hk
      rcases hk with hk | hk
      · subst hk
        exact ⟨rfl, l0, by rw [h1, e], hc⟩
      · exact absurd hk (Clean_not_mem hc _ rfl)

/-! ## The Writer and the Reporter together -/

theorem wstep_done (p : Config) (env : Env) (t : Thread) (hd : t.writing_done = true) :
    wstep p env t = some t := by
  unfold wstep
  simp [hd]

theorem after_stutter (p : Config) (env : Env) (k : Nat) (t : Thread)
    (h : after p env k = some t) (hd : t.writing_done = true) (j : Nat) :
    after p env (k + j) = some t := by
  induction j with
  | zero => exact h
  | succ j ih =>
    rw [← Nat.add_assoc]
    simp [after, ih, wstep_done p env t hd]

theorem reach_done_unique (p : Config) (env : Env) (t t1 : Thread)
    (h : Reach p env t) (hd : t.writing_done = true)
    (h1 : Reach p env t1) (hd1 : t1.writing_done = true) : t = t1 := by
  obtain ⟨k, hk⟩ := h
  obtain ⟨k1, hk1⟩ := h1
  rcases Nat.le_total k k1 with hle | hle
  · have := after_stutter p env k t hk hd (k1 - k)
    rw [Nat.add_sub_cancel' hle, hk1] at this
    cases this
    rfl
  · have := after_stutter p env k1 t1 hk1 hd1 (k - k1)
    rw [Nat.add_sub_cancel' hle, hk] at this
    cases this
    rfl

theorem writer_of_reach_done (p : Config) (env : Env) (hwf : p.wf) (t : Thread)
    (h : Reach p env t) (hd : t.writing_done = true) : writer p env = some t := by
  obtain ⟨t1, hd1, hr1, hrun⟩ := writer_terminates p env hwf
  have := reach_done_unique p env t t1 h hd hr1 hd1
  subst this
  exact hrun _ (le_refl _)

theorem render_ok (T b : Nat) (hT : 0 < T) (hb : b ≤ T) :
    renderCompletes (barPos b T) = true := by
  unfold renderCompletes barPos
  have hne : T ≠ 0 := by omega
  have h1 : barWidth * b / T ≤ barWidth := by
    apply Nat.div_le_of_le_mul
    rw [Nat.mul_comm T]
    exact Nat.mul_le_mul_left _ hb
  simp only [hne, if_false, Bool.and_eq_true, decide_eq_true_eq]
  exact ⟨Int.natCast_nonneg _, by exact_mod_cast h1⟩

theorem render_fails (b : Nat) : renderCompletes (barPos b 0) = false := by
  simp [renderCompletes, barPos]

theorem stepsLeft_zero (p : Config) (t : Thread) (h : stepsLeft p t = 0) :
    t.writing_done = true := by
  cases hd : t.writing_done
  · unfold stepsLeft at h
    simp only [hd, Bool.false_eq_true, if_false] at h
    rcases he : t.exit with _ | e
    · simp only [he] at h
      omega
    · simp only [he] at h
      omega
  · rfl

theorem stepsLeft_after (p : Config) (env : Env) (hwf : p.wf) (m : Nat) :
    ∃ t, after p env m = some t ∧ stepsLeft p t ≤ p.total_bytes_to_write + 2 - m := by
  induction m with
  | zero => exact ⟨init, rfl, by simp [stepsLeft, init]⟩
  | succ m ih =>
    obtain ⟨t, ht, hle⟩ := ih
    have hi := Reach_inv p env hwf t ⟨m, ht⟩
    cases hd : t.writing_done
    · obtain ⟨t1, hs, _, hlt⟩ := wstep_decreases p env t hwf hi hd
      exact ⟨t1, by simp [after, ht, hs], by omega⟩
    · refine ⟨t, by simp [after, ht, wstep_done p env t hd], ?_⟩
      simp [stepsLeft, hd]

theorem after_done_of_ge (p : Config) (env : Env) (hwf : p.wf) (m : Nat)
    (hm : p.total_bytes_to_write + 2 ≤ m) :
    ∃ t, after p env m = some t ∧ t.writing_done = true := by
  obtain ⟨t, ht, hle⟩ := stepsLeft_after p env hwf m
  exact ⟨t, ht, stepsLeft_zero p t (by omega)⟩

theorem SysInv_init (p : Config) (env : Env) : SysInv p env sysInit := by
  constructor
  · exact ⟨0, rfl⟩
  all_goals simp [sysInit]

theorem sysStep_writer (p : Config) (env : Env) (σ : Sys) (h : σ.r.pc ≠ RPc.terminated) :
    sysStep p env true σ = (wstep p env σ.w).map (fun w1 => { σ with w := w1 }) := by
  simp [sysStep, h]

theorem sysStep_reporter (p : Config) (env : Env) (σ : Sys) (h : σ.r.pc ≠ RPc.terminated) :
    sysStep p env false σ
      = some { σ with r := update_progress_bar σ.w p.total_bytes_to_write σ.r } := by
  simp [sysStep, h]

theorem reporter_inv (p : Config) (env : Env) (hwf : p.wf)
    (hT : 0 < p.total_bytes_to_write) (σ : Sys) (h : SysInv p env σ) :
    SysInv p env { σ with r := update_progress_bar σ.w p.total_bytes_to_write σ.r } := by
  have hle := (Reach_inv p env hwf σ.w h.reach).sinv.total_le
  have hok := render_ok p.total_bytes_to_write σ.w.s.total_bytes_written hT hle
  rcases σ with ⟨w, ⟨pc, rs, ad⟩⟩
  have hpre := h.pre
  have hseen := h.seen
  have hfin := h.fin
  have halive := h.alive
  simp only at hpre hseen hfin halive hok
  cases pc
  · cases hd : w.writing_done
    · constructor
      · exact h.reach
      all_goals simp [update_progress_bar, hd]
      exact hpre (Or.inl rfl)
    · constructor
      · exact h.reach
      all_goals simp [update_progress_bar, hd]
      exact hpre (Or.inl rfl)
  · constructor
    · exact h.reach
    all_goals simp [update_progress_bar, hok]
    exact hpre (Or.inr rfl)
  · constructor
    · exact h.reach
    all_goals simp [update_progress_bar, hok]
    exact hseen rfl
  · constructor
    · exact h.reach
    all_goals simp [update_progress_bar]
    exact hfin rfl
  · exact absurd rfl halive

theorem writer_inv (p : Config) (env : Env) (σ : Sys) (w1 : Thread)
    (h : SysInv p env σ) (hs : wstep p env σ.w = some w1) :
    SysInv p env { σ with w := w1 } := by
  have hstay : σ.w.writing_done = true → w1 = σ.w := by
    intro hd
    rw [wstep_done p env σ.w hd] at hs
    cases hs
    rfl
  constructor
  · exact Reach_step p env σ.w w1 h.reach hs
  · exact h.alive
  · exact h.pre
  · intro hx
    obtain ⟨hd, ha⟩ := h.seen hx
    simp only [hstay hd]
    exact ⟨hd, ha⟩
  · intro hx
    obtain ⟨hd, ha⟩ := h.fin hx
    simp only [hstay hd]
    exact ⟨hd, ha⟩

theorem sysAfter_inv (p : Config) (env : Env) (hwf : p.wf)
    (hT : 0 < p.total_bytes_to_write) (sched : Nat → Bool) (k : Nat) :
    ∃ σ, sysAfter p env sched k = some σ ∧ SysInv p env σ ∧
      after p env (writerMoves sched k) = some σ.w := by
  induction k with
  | zero => exact ⟨sysInit, rfl, SysInv_init p env, rfl⟩
  | succ k ih =>
    obtain ⟨σ, hσ, hi, hw⟩ := ih
    cases hb : sched k
    · refine ⟨_, by simp [sysAfter, hσ, hb, sysStep_reporter p env σ hi.alive],
        reporter_inv p env hwf hT σ hi, ?_⟩
      simpa [writerMoves, hb] using hw
    · obtain ⟨w1, hs, _⟩ := wstep_inv p env σ.w hwf (Reach_inv p env hwf σ.w hi.reach)
      refine ⟨{ σ with w := w1 },
        by simp [sysAfter, hσ, hb, sysStep_writer p env σ hi.alive, hs],
        writer_inv p env σ w1 hi hs, ?_⟩
      simp [writerMoves, hb, after, hw, hs]

theorem reporter_countdown (p : Config) (env : Env) (hwf : p.wf)
    (hT : 0 < p.total_bytes_to_write) (σ : Sys) (h : SysInv p env σ)
    (hd : σ.w.writing_done = true) :
    stepsToReturn (update_progress_bar σ.w p.total_bytes_to_write σ.r)
      = stepsToReturn σ.r - 1 := by
  have hle := (Reach_inv p env hwf σ.w h.reach).sinv.total_le
  have hok := render_ok p.total_bytes_to_write σ.w.s.total_bytes_written hT hle
  rcases σ with ⟨w, ⟨pc, rs, ad⟩⟩
  simp only at hd hok
  cases pc <;> simp [update_progress_bar, stepsToReturn, hd, hok]

theorem countdown_from (p : Config) (env : Env) (hwf : p.wf)
    (hT : 0 < p.total_bytes_to_write) (sched : Nat → Bool) (k0 : Nat) (σ0 : Sys)
    (h0 : sysAfter p env sched k0 = some σ0) (hd : σ0.w.writing_done = true) (j : Nat) :
    ∃ σ, sysAfter p env sched (k0 + j) = some σ ∧ σ.w = σ0.w ∧
      reporterMoves sched k0 ≤ reporterMoves sched (k0 + j) ∧
      stepsToReturn σ.r = stepsToReturn σ0.r -
        (reporterMoves sched (k0 + j) - reporterMoves sched k0) := by
  induction j with
  | zero => exact ⟨σ0, h0, rfl, le_refl _, by simp⟩
  | succ j ih =>
    obtain ⟨σ, hσ, hw, hmono, hcount⟩ := ih
    obtain ⟨σx, hx, hi, _⟩ := sysAfter_inv p env hwf hT sched (k0 + j)
    rw [hσ] at hx
    cases hx
    have hdσ : σ.w.writing_done = true := by rw [hw]; exact hd
    rw [← Nat.add_assoc]
    cases hb : sched (k0 + j)
    · have e1 : reporterMoves sched (k0 + j + 1) = reporterMoves sched (k0 + j) + 1 := by
        simp [reporterMoves, hb]
      have e2 := reporter_countdown p env hwf hT σ hi hdσ
      refine ⟨{ σ with r := update_progress_bar σ.w p.total_bytes_to_write σ.r },
        by simp [sysAfter, hσ, hb, sysStep_reporter p env σ hi.alive], hw, by omega, ?_⟩
      show stepsToReturn (update_progress_bar σ.w p.total_bytes_to_write σ.r) = _
      rw [e2, hcount, e1]
      omega
    · have e1 : reporterMoves sched (k0 + j + 1) = reporterMoves sched (k0 + j) := by
        simp [reporterMoves, hb]
      refine ⟨σ, ?_, hw, by omega, ?_⟩
      · simp [sysAfter, hσ, hb, sysStep_writer p env σ hi.alive, wstep_done p env σ.w hdσ]
      · rw [hcount, e1]

theorem FullInv_step (env : Env) (b : Bool) (σ : Sys) (m : Nat) (h : FullInv env σ m) :
    ∃ σ1, sysStep (sessionCfg 0) env b σ = some σ1 ∧
      FullInv env σ1 (m + (if b then 0 else 1)) := by
  have hwf : (sessionCfg 0).wf := by decide
  by_cases ht : σ.r.pc = RPc.terminated
  · refine ⟨σ, by simp [sysStep, ht], h.reach, h.renders, h.afterDone, ?_⟩
    rcases h.pc with ⟨_, hx⟩ | ⟨_, hx | hx⟩ | ⟨hm, _⟩
    · rw [ht] at hx; cases hx
    · rw [ht] at hx; cases hx
    · rw [ht] at hx; cases hx
    · exact Or.inr (Or.inr ⟨by split <;> omega, ht⟩)
  · cases b
    · rw [sysStep_reporter _ env σ ht]
      refine ⟨_, rfl, ?_⟩
      have hr := h.renders
      have ha := h.afterDone
      have hpc := h.pc
      have hreach := h.reach
      rcases σ with ⟨w, ⟨pc, rs, ad⟩⟩
      simp only at hr ha hpc ht hreach
      have hfail := render_fails w.s.total_bytes_written
      have hz : (sessionCfg 0).total_bytes_to_write = 0 := rfl
      rcases hpc with ⟨hm, hx⟩ | ⟨hm, hx | hx⟩ | ⟨_, hx⟩
      · subst hx
        cases hd : w.writing_done
        · exact ⟨hreach, by simp [update_progress_bar, hd, hr],
            by simp [update_progress_bar, hd, ha],
            Or.inr (Or.inl ⟨by simp [hm], by simp [update_progress_bar, hd]⟩)⟩
        · exact ⟨hreach, by simp [update_progress_bar, hd, hr],
            by simp [update_progress_bar, hd, ha],
            Or.inr (Or.inl ⟨by simp [hm], by simp [update_progress_bar, hd]⟩)⟩
      · subst hx
        exact ⟨hreach, by simp [update_progress_bar, hz, hfail, hr],
          by simp [update_progress_bar, hz, hfail, ha],
          Or.inr (Or.inr ⟨by simp [hm], by simp [update_progress_bar, hz, hfail]⟩)⟩
      · subst hx
        exact ⟨hreach, by simp [update_progress_bar, hz, hfail, hr],
          by simp [update_progress_bar, hz, hfail, ha],
          Or.inr (Or.inr ⟨by simp [hm], by simp [update_progress_bar, hz, hfail]⟩)⟩
      · exact absurd hx ht
    · obtain ⟨w1, hs, _⟩ := wstep_inv (sessionCfg 0) env σ.w hwf
        (Reach_inv (sessionCfg 0) env hwf σ.w h.reach)
      rw [sysStep_writer _ env σ ht, hs]
      refine ⟨_, rfl, Reach_step _ env σ.w w1 h.reach hs, h.renders, h.afterDone, ?_⟩
      simpa using h.pc

theorem sysAfter_full (env : Env) (sched : Nat → Bool) (k : Nat) :
    ∃ σ, sysAfter (sessionCfg 0) env sched k = some σ ∧
      FullInv env σ (reporterMoves sched k) := by
  induction k with
  | zero =>
    exact ⟨sysInit, rfl, ⟨0, rfl⟩, rfl, rfl, Or.inl ⟨rfl, rfl⟩⟩
  | succ k ih =>
    obtain ⟨σ, hσ, hi⟩ := ih
    obtain ⟨σ1, h1, hi1⟩ := FullInv_step env (sched k) σ _ hi
    exact ⟨σ1, by simp [sysAfter, hσ, h1], hi1⟩

/-! ## The return value of `main` -/

theorem main_session (pre : Preflight) (env : Env) (sched : Nat → Bool) (steps : Nat)
    (o : Outcome) (σ : Sys) (h : main pre env sched steps = some o)
    (hs : o.session = some σ) :
    ∃ free, pre.free_bytes_available = some free ∧
      sysAfter (sessionCfg free) env sched steps = some σ ∧
      (∀ st, o.result = MainResult.returned st →
        st = 0 ∧ σ.w.writing_done = true ∧ σ.r.pc = RPc.finished) := by
  unfold main at h
  split at h
  · cases h
    cases hs
  · split at h
    · cases h
      cases hs
    · split at h
      · cases h
        cases hs
      · rename_i free hfree
        split at h
        · cases h
        · rename_i σ1 hσ1
          split at h
          · cases h
            simp only [Option.some.injEq] at hs
            subst hs
            exact ⟨free, hfree, hσ1, fun st hst => by cases hst⟩
          · split at h
            · rename_i hfin
              cases h
              simp only [Option.some.injEq] at hs
              subst hs
              simp only [Bool.and_eq_true, decide_eq_true_eq] at hfin
              refine ⟨free, hfree, hσ1, fun st hst => ?_⟩
              cases hst
              exact ⟨rfl, hfin.1, hfin.2⟩
            · cases h
              simp only [Option.some.injEq] at hs
              subst hs
              exact ⟨free, hfree, hσ1, fun st hst => by cases hst⟩

theorem main_cases (pre : Preflight) (env : Env) (sched : Nat → Bool) (steps : Nat)
    (o : Outcome) (h : main pre env sched steps = some o) :
    (pre.confirmation != 'y' && pre.confirmation != 'Y') = true ∨
    ((pre.is_drive_removable && pre.is_drive_usb) == false) = true ∨
    pre.free_bytes_available = none ∨ ∃ σ, o.session = some σ := by
  unfold main at h
  split at h
  · rename_i hc
    exact Or.inl hc
  · split at h
    · rename_i hc
      exact Or.inr (Or.inl hc)
    · split at h
      · rename_i hfree
        exact Or.inr (Or.inr (Or.inl hfree))
      · split at h
        · cases h
        · rename_i σ1 hσ1
          refine Or.inr (Or.inr (Or.inr ⟨σ1, ?_⟩))
          split at h
          · cases h
            rfl
          · split at h
            · cases h
              rfl
            · cases h
              rfl

theorem main_status_of_session (pre : Preflight) (env : Env) (sched : Nat → Bool)
    (steps : Nat) (o : Outcome) (σ : Sys) (st : Int)
    (h : main pre env sched steps = some o) (hs : o.session = some σ)
    (hr : o.result = MainResult.returned st) : st = 0 := by
  obtain ⟨_, _, _, hst⟩ := main_session pre env sched steps o σ h hs
  exact (hst st hr).1

/-! ## The final render when there is something to write -/

theorem render_after_done (p : Config) (env : Env) (hwf : p.wf)
    (hT : 0 < p.total_bytes_to_write) (sched : Nat → Bool) (k : Nat) :
    ∃ σ, sysAfter p env sched k = some σ ∧ σ.r.pc ≠ RPc.terminated ∧
      (σ.r.pc ≠ RPc.finished → σ.r.afterDone = []) ∧
      (σ.r.pc = RPc.finalRender → σ.w.writing_done = true) ∧
      (σ.r.pc = RPc.finished →
        writer p env = some σ.w ∧
        σ.r.afterDone = [σ.w.s.total_bytes_written] ∧
        σ.r.renders.head? = some σ.w.s.total_bytes_written) := by
  obtain ⟨σ, hσ, hi, _⟩ := sysAfter_inv p env hwf hT sched k
  refine ⟨σ, hσ, hi.alive, ?_, ?_, ?_⟩
  · intro hne
    rcases hpc : σ.r.pc
    · exact hi.pre (Or.inl hpc)
    · exact hi.pre (Or.inr hpc)
    · exact (hi.seen hpc).2
    · exact absurd hpc hne
    · exact absurd hpc hi.alive
  · intro hpc
    exact (hi.seen hpc).1
  · intro hpc
    obtain ⟨hd, ha, hr⟩ := hi.fin hpc
    exact ⟨writer_of_reach_done p env hwf σ.w hi.reach hd, ha, hr⟩

theorem reporter_returns (p : Config) (env : Env) (hwf : p.wf)
    (hT : 0 < p.total_bytes_to_write) (sched : Nat → Bool) (k0 k : Nat) (hk : k0 ≤ k)
    (hw : p.total_bytes_to_write + 2 ≤ writerMoves sched k0)
    (hr : 3 ≤ reporterMoves sched k - reporterMoves sched k0) :
    ∃ σ, sysAfter p env sched k = some σ ∧ σ.r.pc = RPc.finished ∧
      writer p env = some σ.w ∧
      σ.r.afterDone = [σ.w.s.total_bytes_written] ∧
      σ.r.renders.head? = some σ.w.s.total_bytes_written := by
  obtain ⟨σ0, h0, _, hw0⟩ := sysAfter_inv p env hwf hT sched k0
  obtain ⟨t, ht, hd⟩ := after_done_of_ge p env hwf _ hw
  rw [ht] at hw0
  cases hw0
  obtain ⟨σ, hσ, _, _, hcount⟩ := countdown_from p env hwf hT sched k0 σ0 h0 hd (k - k0)
  rw [Nat.add_sub_cancel' hk] at hσ hcount
  obtain ⟨σx, hx, hi, _⟩ := sysAfter_inv p env hwf hT sched k
  rw [hσ] at hx
  cases hx
  have hle : stepsToReturn σ0.r ≤ 3 := by
    unfold stepsToReturn
    split <;> omega
  have hzero : stepsToReturn σ.r = 0 := by omega
  have hpc : σ.r.pc = RPc.finished := by
    have halive := hi.alive
    unfold stepsToReturn at hzero
    rcases hp : σ.r.pc
    · rw [hp] at hzero; simp at hzero
    · rw [hp] at hzero; simp at hzero
    · rw [hp] at hzero; simp at hzero
    · rfl
    · exact absurd hp halive
  obtain ⟨hdone, ha, hrn⟩ := hi.fin hpc
  exact ⟨σ, hσ, hpc, writer_of_reach_done p env hwf σ.w hi.reach hdone, ha, hrn⟩

/-! ## The claims -/

/-- C1: in every session, at every step of the Writer the counter `total_bytes_written` is
at least its previous value and at most `total_bytes_to_write`, and the unsigned subtraction
`total_bytes_to_write - total_bytes_written` yields the true difference (it does not wrap). -/
theorem C1_total_monotone_bounded (p : Config) (env : Env) (hwf : p.wf) (k : Nat) :
    ∃ t t1, after p env k = some t ∧ after p env (k + 1) = some t1 ∧
      t.s.total_bytes_written ≤ t1.s.total_bytes_written ∧
      t.s.total_bytes_written ≤ p.total_bytes_to_write ∧
      t1.s.total_bytes_written ≤ p.total_bytes_to_write ∧
      usub p.total_bytes_to_write t.s.total_bytes_written + t.s.total_bytes_written
        = p.total_bytes_to_write := by
  obtain ⟨t, t1, h0, h1, hs, hi, hi1⟩ := after_succ p env hwf k
  refine ⟨t, t1, h0, h1, wstep_total_mono p env t t1 hwf hi hs, hi.sinv.total_le,
    hi1.sinv.total_le, ?_⟩
  rw [usub_eq hi.sinv.total_le hwf.1]
  have := hi.sinv.total_le
  omega

/-- Witness of C1: the sample session at its third step. -/
theorem C1_witness :
    smallCfg.wf ∧ ∃ t t1, after smallCfg badWriteEnv 2 = some t ∧
      after smallCfg badWriteEnv 3 = some t1 ∧
      t.s.total_bytes_written ≤ t1.s.total_bytes_written ∧
      t.s.total_bytes_written ≤ smallCfg.total_bytes_to_write ∧
      t1.s.total_bytes_written ≤ smallCfg.total_bytes_to_write ∧
      usub smallCfg.total_bytes_to_write t.s.total_bytes_written + t.s.total_bytes_written
        = smallCfg.total_bytes_to_write :=
  ⟨by decide, C1_total_monotone_bounded smallCfg badWriteEnv (by decide) 2⟩

/-- C2: in every session no created file ever holds more than `max_file_size` bytes, and the
session ends in a state in which every created file other than the last one created (the head
of `files`) holds exactly `max_file_size` bytes; failures of `open` and `write` included, a
failed write storing nothing. -/
theorem C2_file_sizes (p : Config) (env : Env) (hwf : p.wf) :
    (∀ k, ∃ t, after p env k = some t ∧ ∀ f ∈ t.s.files, f.2 ≤ p.max_file_size) ∧
    (∃ t, writer p env = some t ∧ (∀ f ∈ t.s.files, f.2 ≤ p.max_file_size) ∧
      ∀ f ∈ t.s.files.tail, f.2 = p.max_file_size) := by
  have key : ∀ t, Inv p env t → ∀ f ∈ t.s.files, f.2 ≤ p.max_file_size := by
    intro t hi f hf
    have hs := hi.sinv
    rcases hfl : t.s.files with _ | ⟨g, rest⟩
    · rw [hfl] at hf
      simp at hf
    · rw [hfl] at hf
      rcases List.mem_cons.mp hf with e | e
      · subst e
        have := hs.head_size f (by simp [hfl])
        have hper := hs.per_lt
        omega
      · have := hs.tail_full f (by simpa [hfl] using e)
        omega
  constructor
  · intro k
    obtain ⟨t, ht, hi⟩ := after_some p env hwf k
    exact ⟨t, ht, key t hi⟩
  · obtain ⟨t, _, _, hrun⟩ := writer_terminates p env hwf
    have hw : writer p env = some t := hrun _ (le_refl _)
    obtain ⟨_, _, hi⟩ := writer_result p env hwf t hw
    exact ⟨t, hw, key t hi, hi.sinv.tail_full⟩

/-- Witness of C2: the sample session whose fourth write fails. -/
theorem C2_witness :
    smallCfg.wf ∧
    (∀ k, ∃ t, after smallCfg badWriteEnv k = some t ∧
      ∀ f ∈ t.s.files, f.2 ≤ smallCfg.max_file_size) ∧
    (∃ t, writer smallCfg badWriteEnv = some t ∧
      (∀ f ∈ t.s.files, f.2 ≤ smallCfg.max_file_size) ∧
      ∀ f ∈ t.s.files.tail, f.2 = smallCfg.max_file_size) :=
  ⟨by decide, C2_file_sizes smallCfg badWriteEnv (by decide)⟩

/-- C3: every session ends, and when the loop has been left (for whatever reason) the bytes
stored in the created files add up to the final `total_bytes_written`. -/
theorem C3_sum_of_files (p : Config) (env : Env) (hwf : p.wf) :
    ∃ t, writer p env = some t ∧ (t.s.files.map Prod.snd).sum = t.s.total_bytes_written := by
  obtain ⟨t, _, _, hrun⟩ := writer_terminates p env hwf
  have hw : writer p env = some t := hrun _ (le_refl _)
  obtain ⟨_, _, hi⟩ := writer_result p env hwf t hw
  exact ⟨t, hw, hi.sinv.sum_files⟩

/-- Witness of C3: the sample session whose third `open` fails. -/
theorem C3_witness :
    smallCfg.wf ∧ ∃ t, writer smallCfg badOpenEnv = some t ∧
      (t.s.files.map Prod.snd).sum = t.s.total_bytes_written :=
  ⟨by decide, C3_sum_of_files smallCfg badOpenEnv (by decide)⟩

/-- C5: at every point of every session the indices of the files opened so far, in creation
order, are strictly increasing, contain no index that existed at session start, and skip no
free index: a free index below an opened one has been opened too. -/
theorem C5_indices (p : Config) (env : Env) (hwf : p.wf) (k : Nat) :
    ∃ t, after p env k = some t ∧
      (indices t.s).Pairwise (fun a b => a < b) ∧
      (∀ i ∈ indices t.s, i ∉ env.existing) ∧
      (∀ i ∈ indices t.s, ∀ j, j < i → j ∉ env.existing → j ∈ indices t.s) := by
  obtain ⟨t, ht, hi⟩ := after_some p env hwf k
  have hs := hi.sinv
  refine ⟨t, ht, ?_, ?_, ?_⟩
  · unfold indices
    rw [List.pairwise_reverse]
    exact hs.idx_sorted
  · intro i hx
    unfold indices at hx
    exact (hs.idx_lt i (List.mem_reverse.mp hx)).2
  · intro i hx j hj hfree
    unfold indices at hx ⊢
    have h1 := (hs.idx_lt i (List.mem_reverse.mp hx)).1
    rcases hs.idx_all j (by omega) with e | e
    · exact absurd e hfree
    · exact List.mem_reverse.mpr e

/-- Witness of C5: with `filldata_0.bin` present the first file created has index 1; with
indices 0 and 2 present the session creates the files 1, 3 and 4. -/
theorem C5_witness :
    smallCfg.wf ∧
    (writer smallCfg { quietEnv with existing := [0] }).map (fun t => (indices t.s).head?)
      = some (some 1) ∧
    (writer smallCfg quietEnv).map (fun t => indices t.s) = some [1, 3, 4] ∧
    ∃ t, after smallCfg quietEnv 6 = some t ∧
      (indices t.s).Pairwise (fun a b => a < b) ∧
      (∀ i ∈ indices t.s, i ∉ quietEnv.existing) ∧
      (∀ i ∈ indices t.s, ∀ j, j < i → j ∉ quietEnv.existing → j ∈ indices t.s) :=
  ⟨by decide, by decide, by decide, C5_indices smallCfg quietEnv (by decide) 6⟩

/-- C8: at every point of every session at most one file handle is held; at the head of
the loop the stream is open exactly when `per_file_bytes_written > 0`, so every `open` is made
with no file open; and once `writing_done` is set no file is open, whatever way the loop was
left. The session reaches that state. -/
theorem C8_one_handle (p : Config) (env : Env) (hwf : p.wf) :
    (∀ k, ∃ t, after p env k = some t ∧
      (∀ l, l <:+ t.s.log → handles l ≤ 1) ∧
      (∀ idx l, Event.opened idx :: l <:+ t.s.log → handles l = 0) ∧
      (t.exit = none → (t.s.file.is_open = true ↔ 0 < t.s.per_file_bytes_written)) ∧
      (t.writing_done = true → t.s.file.is_open = false ∧ handles t.s.log = 0)) ∧
    (∃ t, writer p env = some t ∧ t.writing_done = true ∧ t.s.file.is_open = false ∧
      handles t.s.log = 0) := by
  have key : ∀ t, Inv p env t →
      (t.writing_done = true → t.s.file.is_open = false ∧ handles t.s.log = 0) := by
    intro t hi hd
    have hc := hi.done_closed hd
    have := hi.sinv.handles_eq
    simp only [hc, Bool.false_eq_true, if_false] at this
    exact ⟨hc, this⟩
  constructor
  · intro k
    obtain ⟨t, ht, hi⟩ := after_some p env hwf k
    refine ⟨t, ht, hi.sinv.handles_le, ?_, hi.head_open, key t hi⟩
    intro idx l hl
    have := hi.sinv.handles_le _ hl
    simp only [handles] at this
    omega
  · obtain ⟨t, hd, _, hrun⟩ := writer_terminates p env hwf
    have hw : writer p env = some t := hrun _ (le_refl _)
    obtain ⟨_, _, hi⟩ := writer_result p env hwf t hw
    exact ⟨t, hw, hd, (key t hi hd).1, (key t hi hd).2⟩

/-- Witness of C8: the sample session whose fourth write fails. -/
theorem C8_witness :
    smallCfg.wf ∧
    (∃ t, after smallCfg badWriteEnv 4 = some t ∧
      (∀ l, l <:+ t.s.log → handles l ≤ 1) ∧
      (∀ idx l, Event.opened idx :: l <:+ t.s.log → handles l = 0) ∧
      (t.exit = none → (t.s.file.is_open = true ↔ 0 < t.s.per_file_bytes_written)) ∧
      (t.writing_done = true → t.s.file.is_open = false ∧ handles t.s.log = 0)) ∧
    (∃ t, writer smallCfg badWriteEnv = some t ∧ t.writing_done = true ∧
      t.s.file.is_open = false ∧ handles t.s.log = 0) :=
  ⟨by decide, (C8_one_handle smallCfg badWriteEnv (by decide)).1 4,
    (C8_one_handle smallCfg badWriteEnv (by decide)).2⟩

/-- C4: in a session in which no `open` and no `write` fails, with a positive buffer size and
a positive file-size limit, the Writer ends by exhausting the capacity with
`total_bytes_written` equal to the target `T`, and the sizes of the created files, in creation
order, are `T / L` files of `L` bytes followed by one file of `T % L` bytes when `T % L > 0`;
so `ceil (T / L)` files are created, and none when `T = 0`. -/
theorem C4_sizes_without_failure (p : Config) (env : Env) (hwf : p.wf)
    (hB : 0 < p.buffer_size) (hL : 0 < p.max_file_size)
    (ho : ∀ n, env.openOk n = true) (hw : ∀ n, env.writeOk n = true) :
    ∃ t, writer p env = some t ∧ t.exit = some Exit.capacity ∧
      t.s.total_bytes_written = p.total_bytes_to_write ∧
      sizes t.s = List.replicate (p.total_bytes_to_write / p.max_file_size) p.max_file_size ++
        (if 0 < p.total_bytes_to_write % p.max_file_size
          then [p.total_bytes_to_write % p.max_file_size] else []) ∧
      (sizes t.s).length = (p.total_bytes_to_write + p.max_file_size - 1) / p.max_file_size ∧
      (p.total_bytes_to_write = 0 → t.s.files = []) := by
  obtain ⟨t, hd, ⟨k, hk⟩, hrun⟩ := writer_terminates p env hwf
  have hwr : writer p env = some t := hrun _ (le_refl _)
  obtain ⟨t1, h1, hi, hex⟩ := nofail_after p env hwf hB hL ho hw k
  rw [hk] at h1
  cases h1
  have hcap : t.exit = some Exit.capacity := by
    rcases hex with e | e
    · exact absurd e (hi.done_exit hd)
    · exact e
  have hs := hi.sinv
  have htot : t.s.total_bytes_written = p.total_bytes_to_write := by
    have h1 := hi.cap_exit hcap
    have h2 := hs.total_le
    omega
  have hsum := hs.sum_files
  rw [htot] at hsum
  have hsizes : sizes t.s =
      List.replicate (p.total_bytes_to_write / p.max_file_size) p.max_file_size ++
        (if 0 < p.total_bytes_to_write % p.max_file_size
          then [p.total_bytes_to_write % p.max_file_size] else []) := by
    unfold sizes
    rcases hfl : t.s.files with _ | ⟨⟨i, b⟩, rest⟩
    · rw [hfl] at hsum
      simp only [List.map_nil, List.sum_nil] at hsum
      simp [← hsum]
    · have htail := hs.tail_full
      have hhead := hs.head_size (i, b) (by simp [hfl])
      have hpos := hi.head_pos (Or.inr hcap) (i, b) (by simp [hfl])
      have hper := hs.per_lt
      simp only [hfl, List.tail_cons] at htail
      have hrep := map_snd_replicate rest p.max_file_size htail
      rw [hfl] at hsum
      simp only [List.map_cons, List.sum_cons, hrep, List.sum_replicate, smul_eq_mul] at hsum
      simp only [List.map_cons, List.reverse_cons, hrep, List.reverse_replicate]
      simp only at hhead hpos
      by_cases hb : b = p.max_file_size
      · have e1 : p.total_bytes_to_write = (rest.length + 1) * p.max_file_size := by
          rw [← hsum, hb]; ring
        have e2 : p.total_bytes_to_write / p.max_file_size = rest.length + 1 := by
          rw [e1]; exact Nat.mul_div_cancel _ hL
        have e3 : p.total_bytes_to_write % p.max_file_size = 0 := by
          rw [e1]; exact Nat.mul_mod_left _ _
        rw [e2, e3, hb]
        simp [List.replicate_succ']
      · have hlt : b < p.max_file_size := by omega
        have e2 : p.total_bytes_to_write / p.max_file_size = rest.length := by
          rw [← hsum, Nat.add_mul_div_right _ _ hL, Nat.div_eq_of_lt hlt, Nat.zero_add]
        have e3 : p.total_bytes_to_write % p.max_file_size = b := by
          rw [← hsum, Nat.add_mul_mod_self_right, Nat.mod_eq_of_lt hlt]
        rw [e2, e3]
        simp [hpos]
  refine ⟨t, hwr, hcap, htot, hsizes, ?_, ?_⟩
  · rw [hsizes, ← ceil_div _ _ hL]
    split <;> simp
  · intro h0
    have hlen : (sizes t.s).length = 0 := by
      rw [hsizes, h0]
      simp
    unfold sizes at hlen
    simpa using hlen

/-- Witness of C4: 10 MiB in files of 4 MiB with a buffer of 1 MiB gives three files of
4 MiB, 4 MiB and 2 MiB and a total of 10 MiB. -/
theorem C4_witness :
    ∃ t, writer mibCfg quietEnv = some t ∧
      t.s.total_bytes_written = 10 * 2 ^ 20 ∧
      sizes t.s = [4 * 2 ^ 20, 4 * 2 ^ 20, 2 * 2 ^ 20] ∧
      (sizes t.s).length = 3 := by
  obtain ⟨t, h1, _, h3, h4, h5, _⟩ := C4_sizes_without_failure mibCfg quietEnv
    (by decide) (by decide) (by decide) (fun _ => rfl) (fun _ => rfl)
  refine ⟨t, h1, h3, ?_, ?_⟩
  · rw [h4]; decide
  · rw [h5]; decide

/-- C6: when a write fails in a session, the loop is left through the write-failure branch, the
only events after the failed write are the `close` of the current file and the store to
`writing_done` (no further `write`, no further `open`), every earlier call succeeded, and the
failed write adds nothing to either counter: the final `total_bytes_written`, like the bytes
stored in the files, is exactly the sum of the sizes of the writes that succeeded before the
failure, and the final `per_file_bytes_written` is the sum of the sizes of those among them
that went to the file open at the failure. -/
theorem C6_write_failure (p : Config) (env : Env) (hwf : p.wf) (t : Thread) (k : Nat)
    (hw : writer p env = some t) (hf : Event.writeFailed k ∈ t.s.log) :
    t.exit = some Exit.writeFailed ∧
    ∃ l0, t.s.log = Event.done :: Event.closed :: Event.writeFailed k :: l0 ∧
      (∀ e ∈ l0, e.ok = true) ∧
      t.s.total_bytes_written = wroteSum l0 ∧
      t.s.per_file_bytes_written = currentSum l0 ∧
      (t.s.files.map Prod.snd).sum = wroteSum l0 := by
  obtain ⟨hd, _, hi⟩ := writer_result p env hwf t hw
  have hshape := hi.shape
  rw [hd] at hshape
  obtain ⟨hex, l0, hlog, hclean⟩ := shape_writeFailed hshape hf
  have hsum := hi.sinv.wrote_sum
  rw [hlog] at hsum
  simp only [wroteSum] at hsum
  have hcur := hi.fail_cur hex
  rw [hlog] at hcur
  simp only [beforeWriteFailure] at hcur
  refine ⟨hex, l0, hlog, hclean, hsum.symm, hcur, ?_⟩
  rw [hi.sinv.sum_files, hsum]

/-- Witness of C6: in the sample session the fourth write (1 byte) fails after writes of
3, 1 and 3 bytes; the session ends with 7 bytes written, 3 of them to the file that was open
at the failure. -/
theorem C6_witness :
    ∃ t, writer smallCfg badWriteEnv = some t ∧ Event.writeFailed 1 ∈ t.s.log ∧
      t.s.total_bytes_written = 7 ∧ t.s.per_file_bytes_written = 3 ∧
      t.exit = some Exit.writeFailed ∧
      ∃ l0, t.s.log = Event.done :: Event.closed :: Event.writeFailed 1 :: l0 ∧
        (∀ e ∈ l0, e.ok = true) ∧
        t.s.total_bytes_written = wroteSum l0 ∧
        t.s.per_file_bytes_written = currentSum l0 ∧
        (t.s.files.map Prod.snd).sum = wroteSum l0 :=
  ⟨_, rfl, by decide, rfl, rfl,
    C6_write_failure smallCfg badWriteEnv (by decide) _ 1 rfl (by decide)⟩

/-- C9: every session terminates: with enough steps allowed the Writer reaches a state with
`writing_done` set, after at most `total_bytes_to_write` calls of `write`; the store to
`writing_done` is the last event and the only one of its kind, so it follows the last update
of `total_bytes_written`. Along the way each loop iteration either leaves the loop or raises
`total_bytes_written` by at least 1, each scan for a file name stops at an index whose file
does not exist, and once `writing_done` is set the Writer does nothing more. -/
theorem C9_termination (p : Config) (env : Env) (hwf : p.wf) :
    (∃ t, (∀ fuel, p.total_bytes_to_write + 2 ≤ fuel → run p env fuel init = some t) ∧
      writer p env = some t ∧ t.writing_done = true ∧
      writeAttempts t.s.log ≤ p.total_bytes_to_write ∧
      ∃ l1, t.s.log = Event.done :: l1 ∧ Event.done ∉ l1 ∧
        wroteSum l1 = t.s.total_bytes_written) ∧
    (∀ k, ∃ t t1, after p env k = some t ∧ after p env (k + 1) = some t1 ∧
      (t.writing_done = false → t.exit = none →
        t1.exit ≠ none ∨ t.s.total_bytes_written + 1 ≤ t1.s.total_bytes_written) ∧
      (t.writing_done = false → Event.done ∉ t.s.log) ∧
      (t.writing_done = true → t1 = t) ∧
      ∃ idx, scan env t.s (scanFuel env t.s) t.s.file_index = some idx ∧
        pathExists env t.s idx = false) := by
  constructor
  · obtain ⟨t, hd, hr, hrun⟩ := writer_terminates p env hwf
    have hi := Reach_inv p env hwf t hr
    refine ⟨t, hrun, hrun _ (le_refl _), hd, ?_, ?_⟩
    · have h1 := hi.attempts
      have h2 := hi.sinv.total_le
      by_cases hx : t.exit = some Exit.writeFailed
      · have := hi.fail_room hx
        simp only [hx, if_true] at h1
        omega
      · simp only [hx, if_false] at h1
        omega
    · have hshape := hi.shape
      rw [hd] at hshape
      obtain ⟨l1, h1, h2⟩ := shape_done hshape
      refine ⟨l1, h1, h2, ?_⟩
      have := hi.sinv.wrote_sum
      rw [h1] at this
      simpa [wroteSum] using this
  · intro k
    obtain ⟨t, t1, h0, h1, hs, hi, hi1⟩ := after_succ p env hwf k
    refine ⟨t, t1, h0, h1, ?_, ?_, ?_, ?_⟩
    · intro hd he
      obtain ⟨s1, e1, hb, _, hfacts⟩ := body_inv p env t hwf hi he hd
      unfold wstep at hs
      simp only [hd, Bool.false_eq_true, if_false, he, hb, Option.some.injEq] at hs
      subst hs
      rcases e1 with _ | x
      · right
        exact hfacts.progress rfl
      · left
        simp
    · intro hd
      obtain ⟨l1, e1, e2⟩ := hi.shape
      simp only [hd, Bool.false_eq_true, if_false, List.nil_append] at e1
      rw [e1]
      rcases hx : t.exit with _ | x
      · rw [hx] at e2
        exact Clean_not_mem e2 _ rfl
      · rw [hx] at e2
        cases x
        · exact Clean_not_mem e2 _ rfl
        · obtain ⟨idx, l0, e, hc⟩ := e2
          rw [e]
          simp only [List.mem_cons, reduceCtorEq, false_or]
          exact Clean_not_mem hc _ rfl
        · exact Clean_not_mem e2 _ rfl
        · obtain ⟨k1, l0, e, hc⟩ := e2
          rw [e]
          simp only [List.mem_cons, reduceCtorEq, false_or]
          exact Clean_not_mem hc _ rfl
    · intro hd
      unfold wstep at hs
      simp only [hd, if_true, Option.some.injEq] at hs
      exact hs.symm
    · obtain ⟨idx, hidx⟩ := scan_some env t.s (scanFuel env t.s) t.s.file_index
        (by omega) (by unfold scanFuel; omega)
      exact ⟨idx, hidx, (scan_spec env t.s _ _ _ hidx).2.1⟩

/-- Witness of C9: the sample session whose third `open` fails. -/
theorem C9_witness :
    smallCfg.wf ∧
    ∃ t, (∀ fuel, smallCfg.total_bytes_to_write + 2 ≤ fuel →
        run smallCfg badOpenEnv fuel init = some t) ∧
      writer smallCfg badOpenEnv = some t ∧ t.writing_done = true ∧
      writeAttempts t.s.log ≤ smallCfg.total_bytes_to_write ∧
      ∃ l1, t.s.log = Event.done :: l1 ∧ Event.done ∉ l1 ∧
        wroteSum l1 = t.s.total_bytes_written :=
  ⟨by decide, (C9_termination smallCfg badOpenEnv (by decide)).1⟩

/-- C7 fails on the code: on a removable USB drive with 3 bytes free, `main` returns 0 after
the session in which the `open` of `filldata_1.bin` fails (the line of `std::cerr` is written,
the loop is left at once), the same value as after the session that writes all 3 bytes; a run
of `main` that has returned after a session has returned 0 in every case, while the check of
lines 151-154 returns 1. -/
theorem C7_failed_open_returns_zero :
    (∃ o σ, main tinyDrive noOpenEnv alternate 8 = some o ∧ o.session = some σ ∧
      σ.w.exit = some Exit.openFailed ∧
      σ.w.s.cerr = [CerrLine.openFailed (some 1)] ∧
      σ.w.s.total_bytes_written = 0 ∧
      o.result = MainResult.returned 0) ∧
    (∃ o σ, main tinyDrive quietEnv alternate 8 = some o ∧ o.session = some σ ∧
      σ.w.exit = some Exit.capacity ∧ σ.w.s.cerr = [] ∧
      σ.w.s.total_bytes_written = 3 ∧
      o.result = MainResult.returned 0) ∧
    (∃ o, main otherDrive quietEnv alternate 8 = some o ∧
      o.result = MainResult.returned 1) ∧
    (∀ pre env sched steps o σ st, main pre env sched steps = some o →
      o.session = some σ → o.result = MainResult.returned st → st = 0) :=
  ⟨⟨_, _, rfl, rfl, rfl, rfl, rfl, rfl⟩, ⟨_, _, rfl, rfl, rfl, rfl, rfl, rfl⟩, ⟨_, rfl, rfl⟩,
    main_status_of_session⟩

/-- C10 fails on the code when the drive is full (`total_bytes_to_write = 0`): in every
interleaving the Reporter completes no render at all, so none after `writing_done` was set,
and never returns; its first render, periodic or final, divides by `totalBytes = 0`, gets a
bar position that is no valid length, and ends the process through `std::terminate` at the
second step of the Reporter at the latest; `main` never returns. -/
theorem C10_full_drive_no_final_render :
    (∀ env sched k, ∃ σ, sysAfter (sessionCfg 0) env sched k = some σ ∧
      σ.r.renders = [] ∧ σ.r.afterDone = [] ∧ σ.r.pc ≠ RPc.finished ∧
      (2 ≤ reporterMoves sched k → σ.r.pc = RPc.terminated)) ∧
    (∀ env sched steps o st, main fullDrive env sched steps = some o →
      o.result ≠ MainResult.returned st) ∧
    (main fullDrive quietEnv alternate 4).map (fun o => o.result)
      = some MainResult.terminated := by
  have key : ∀ env sched k, ∃ σ, sysAfter (sessionCfg 0) env sched k = some σ ∧
      σ.r.renders = [] ∧ σ.r.afterDone = [] ∧ σ.r.pc ≠ RPc.finished ∧
      (2 ≤ reporterMoves sched k → σ.r.pc = RPc.terminated) := by
    intro env sched k
    obtain ⟨σ, hσ, hi⟩ := sysAfter_full env sched k
    refine ⟨σ, hσ, hi.renders, hi.afterDone, ?_, ?_⟩
    · intro hf
      rcases hi.pc with ⟨_, hx⟩ | ⟨_, hx | hx⟩ | ⟨_, hx⟩ <;>
        · rw [hf] at hx
          cases hx
    · intro hm
      rcases hi.pc with ⟨h0, _⟩ | ⟨h1, _⟩ | ⟨_, hx⟩
      · omega
      · omega
      · exact hx
  refine ⟨key, ?_, by decide⟩
  intro env sched steps o st h hres
  rcases main_cases fullDrive env sched steps o h with hc | hc | hc | ⟨σ, hs⟩
  · exact absurd hc (by decide)
  · exact absurd hc (by decide)
  · cases hc
  · obtain ⟨free, hfree, hσ, hst⟩ := main_session fullDrive env sched steps o σ h hs
    simp only [fullDrive, Option.some.injEq] at hfree
    subst hfree
    obtain ⟨σ1, h1, _, _, hne, _⟩ := key env sched steps
    rw [hσ] at h1
    cases h1
    exact hne (hst st hres).2.2


end FlashDriveFiller
